import Mathlib

/-!
Verification development for the ledger-desktop data backend.

The definitions below are a shallow embedding of the Rust sources:
`src/sexpr.rs` (incremental S-expression parser), `src/ledger.rs`
(the subprocess command actor loop), `src/transactions.rs` (schema
decoder for transactions, postings and amounts) and `src/accounts.rs`
(hierarchical multi-commodity balance aggregator).  Machine strings are
modelled as Lean strings or lists of characters, the fastnum `D128`
decimal and the rust_decimal `Decimal` are modelled as exact rationals
(both are exact decimal types on the value ranges exercised here), and
fallible operations return `Option` or `Except`.
-/

namespace Sexpr

/-- `sexpr::Value`: tagged union of atoms, 64-bit integers, strings and
lists, exactly as in `src/sexpr.rs`. -/
inductive Value where
  | atom (s : String)
  | i64 (n : Int)
  | str (s : String)
  | list (l : List Value)
  deriving Repr, BEq

/-- Decidable equality for `Value` (the derive handles the nested list). -/
def Value.beqEq : (a b : Value) → Decidable (a = b)
  | .atom s, .atom t =>
      if h : s = t then .isTrue (by rw [h]) else .isFalse (by simp [h])
  | .i64 s, .i64 t =>
      if h : s = t then .isTrue (by rw [h]) else .isFalse (by simp [h])
  | .str s, .str t =>
      if h : s = t then .isTrue (by rw [h]) else .isFalse (by simp [h])
  | .list l, .list m =>
      match l, m with
      | [], [] => .isTrue rfl
      | [], _ :: _ => .isFalse (by simp)
      | _ :: _, [] => .isFalse (by simp)
      | a :: l, b :: m =>
          match Value.beqEq a b, Value.beqEq (.list l) (.list m) with
          | .isTrue h1, .isTrue h2 =>
              .isTrue (by simp_all)
          | .isFalse h1, _ => .isFalse (by simp_all)
          | _, .isFalse h2 => .isFalse (by simp_all)
  | .atom _, .i64 _ => .isFalse (by simp)
  | .atom _, .str _ => .isFalse (by simp)
  | .atom _, .list _ => .isFalse (by simp)
  | .i64 _, .atom _ => .isFalse (by simp)
  | .i64 _, .str _ => .isFalse (by simp)
  | .i64 _, .list _ => .isFalse (by simp)
  | .str _, .atom _ => .isFalse (by simp)
  | .str _, .i64 _ => .isFalse (by simp)
  | .str _, .list _ => .isFalse (by simp)
  | .list _, .atom _ => .isFalse (by simp)
  | .list _, .i64 _ => .isFalse (by simp)
  | .list _, .str _ => .isFalse (by simp)

instance : DecidableEq Value := Value.beqEq

/-- `sexpr::Error`.  `InvalidInteger` carries the offending token text in
place of the Rust `ParseIntError` payload. -/
inductive Error where
  | unmatchedCloseParen
  | unterminatedString
  | unclosedParens (n : Nat)
  | multipleTopLevelForms
  | invalidInteger (tok : String)
  deriving Repr, DecidableEq

/-- Parser `State`: normal, or inside a string literal with the buffered
content and the escape-pending flag. -/
inductive PState where
  | normal
  | inString (buf : String) (escaped : Bool)
  deriving Repr, DecidableEq

/-- The incremental parser state of `sexpr::Parser`.  The `stack` of
in-progress lists is kept most-recently-opened first (the head plays the
role of the end of the Rust `Vec`). -/
structure Parser where
  state : PState
  currentAtom : String
  stack : List (List Value)
  output : List Value
  inOuterList : Bool
  deriving Repr, DecidableEq

/-- `Parser::new`. -/
def Parser.new : Parser :=
  { state := .normal, currentAtom := "", stack := [], output := [],
    inOuterList := false }

/-- `i64::from_str`, as used by `flush_atom`: optional sign, at least one
digit, no other characters, and the value must fit in a signed 64-bit
integer. -/
def parseI64 (s : String) : Option Int :=
  let p : Int × List Char :=
    match s.data with
    | '+' :: rest => (1, rest)
    | '-' :: rest => (-1, rest)
    | l => (1, l)
  if p.2.isEmpty ∨ ¬ p.2.all Char.isDigit then none
  else
    let n : Nat := p.2.foldl (fun acc c => acc * 10 + (c.toNat - 48)) 0
    let v : Int := p.1 * n
    if v < -(2 ^ 63) ∨ 2 ^ 63 ≤ v then none else some v

/-- `Parser::push_value`: at depth 1 inside the outer list the value is
streamed to `output`; otherwise it is appended to the innermost
in-progress list, or to `output` when the stack is empty. -/
def Parser.pushValue (p : Parser) (v : Value) : Parser :=
  if p.stack.length = 1 ∧ p.inOuterList then
    { p with output := p.output ++ [v] }
  else
    match p.stack with
    | parent :: rest => { p with stack := (parent ++ [v]) :: rest }
    | [] => { p with output := p.output ++ [v] }

/-- `Parser::flush_atom`: an empty pending atom is a no-op; a token whose
first character is a digit or a minus sign must parse as an integer;
anything else becomes an atom. -/
def Parser.flushAtom (p : Parser) : Except Error Parser :=
  if p.currentAtom.isEmpty then .ok p
  else if (p.currentAtom.data.head?.elim false fun c => c = '-' ∨ c.isDigit) then
    match parseI64 p.currentAtom with
    | some n => .ok (Parser.pushValue { p with currentAtom := "" } (.i64 n))
    | none => .error (.invalidInteger p.currentAtom)
  else
    .ok (Parser.pushValue { p with currentAtom := "" } (.atom p.currentAtom))

/-- One character of `Parser::take`. -/
def Parser.takeChar (p : Parser) (ch : Char) : Except Error Parser :=
  match p.state with
  | .inString buf escaped =>
      if escaped then
        let c : Char := if ch = 'n' then '\n' else if ch = 't' then '\t' else ch
        .ok { p with state := .inString (buf.push c) false }
      else if ch = '\\' then
        .ok { p with state := .inString buf true }
      else if ch = '"' then
        .ok (Parser.pushValue { p with state := .normal } (.str buf))
      else
        .ok { p with state := .inString (buf.push ch) false }
  | .normal =>
      if ch = '"' then do
        let p ← p.flushAtom
        .ok { p with state := .inString "" false }
      else if ch = '(' then do
        let p ← p.flushAtom
        if p.stack.isEmpty ∧ p.inOuterList then
          .error .multipleTopLevelForms
        else
          let p := if p.stack.isEmpty then { p with inOuterList := true } else p
          .ok { p with stack := [] :: p.stack }
      else if ch = ')' then do
        let p ← p.flushAtom
        match p.stack with
        | [] => .error .unmatchedCloseParen
        | list :: rest =>
            let p := { p with stack := rest }
            if rest.isEmpty ∧ p.inOuterList then .ok p
            else .ok (p.pushValue (.list list))
      else if ch.isWhitespace then
        p.flushAtom
      else
        .ok { p with currentAtom := p.currentAtom.push ch }

/-- `Parser::take` over a chunk of characters. -/
def Parser.take (p : Parser) (chunk : List Char) : Except Error Parser :=
  match chunk with
  | [] => .ok p
  | c :: cs => do
      let p' ← p.takeChar c
      p'.take cs

/-- `Parser::drain_output`: return the completed values and clear the
buffer. -/
def Parser.drain (p : Parser) : List Value × Parser :=
  (p.output, { p with output := [] })

/-- `Parser::finish`: flush a trailing atom, then fail on an unterminated
string or unclosed parentheses, else return the buffered values. -/
def Parser.finish (p : Parser) : Except Error (List Value) := do
  let p ← p.flushAtom
  match p.state with
  | .inString _ _ => .error .unterminatedString
  | .normal =>
      if p.stack.isEmpty then .ok p.output
      else .error (.unclosedParens p.stack.length)

/-- `parse_sexpr`: feed the whole input in one `take` call and `finish`. -/
def parseSexpr (input : String) : Except Error (List Value) := do
  let p ← Parser.new.take input.data
  p.finish

/-- The chunked run of the streaming contract: feed each chunk with
`take`, collect `drain_output` after every chunk, and append the values
returned by the final `finish`. -/
def runChunks (p : Parser) (chunks : List (List Char)) (acc : List Value) :
    Except Error (List Value) :=
  match chunks with
  | [] => do
      let vs ← p.finish
      .ok (acc ++ vs)
  | c :: cs => do
      let p' ← p.take c
      let d := p'.drain
      runChunks d.2 cs (acc ++ d.1)

/-- The same parser state with the pending output buffer emptied. -/
def Parser.eraseOut (p : Parser) : Parser := { p with output := [] }

/-- Prepending values to the output buffer commutes with `push_value`:
the parser transition never inspects the buffered output. -/
theorem pushValue_prepend (o : List Value) (p : Parser) (v : Value) :
    Parser.pushValue { p with output := o ++ p.output } v =
      { p.pushValue v with output := o ++ (p.pushValue v).output } := by
  obtain ⟨st, ca, stk, out, io⟩ := p
  unfold Parser.pushValue
  by_cases h : stk.length = 1 ∧ io = true
  · simp [h]
  · simp only at h
    simp only [h, if_false]
    cases stk with
    | nil => simp
    | cons parent rest => simp

/-- Prepending values to the output buffer commutes with `flush_atom`. -/
theorem flushAtom_prepend (o : List Value) (p : Parser) :
    Parser.flushAtom { p with output := o ++ p.output } =
      p.flushAtom.map fun q => { q with output := o ++ q.output } := by
  obtain ⟨st, ca, stk, out, io⟩ := p
  unfold Parser.flushAtom
  by_cases h1 : ca.isEmpty
  · simp [h1, Except.map]
  · simp only [h1, if_false, Bool.false_eq_true]
    by_cases h2 : (ca.data.head?.elim false fun c => c = '-' ∨ c.isDigit)
    · simp only [h2, if_true]
      cases hn : parseI64 ca with
      | some n =>
          simp only [Except.map]
          exact congrArg Except.ok
            (pushValue_prepend o ⟨st, "", stk, out, io⟩ (Value.i64 n))
      | none => simp [Except.map]
    · simp only [h2, if_false, Except.map]
      exact congrArg Except.ok
        (pushValue_prepend o ⟨st, "", stk, out, io⟩ (Value.atom ca))

/-- Prepending values to the output buffer commutes with one step of
`take`. -/
theorem takeChar_prepend (o : List Value) (p : Parser) (c : Char) :
    Parser.takeChar { p with output := o ++ p.output } c =
      (p.takeChar c).map fun q => { q with output := o ++ q.output } := by
  obtain ⟨st, ca, stk, out, io⟩ := p
  cases st with
  | inString buf escaped =>
      cases escaped with
      | true => simp [Parser.takeChar, Except.map]
      | false =>
          by_cases h1 : c = '\\'
          · simp [Parser.takeChar, h1, Except.map]
          · by_cases h2 : c = '"'
            · simp only [Parser.takeChar, h1, h2, if_true, if_false,
                Bool.false_eq_true, Except.map]
              exact congrArg Except.ok
                (pushValue_prepend o ⟨PState.normal, ca, stk, out, io⟩ (Value.str buf))
            · simp [Parser.takeChar, h1, h2, Except.map]
  | normal =>
      by_cases h1 : c = '"'
      · simp only [Parser.takeChar, h1, if_true]
        rw [flushAtom_prepend o ⟨PState.normal, ca, stk, out, io⟩]
        cases hfa : Parser.flushAtom ⟨PState.normal, ca, stk, out, io⟩ with
        | ok q => simp [Except.map, Bind.bind, Except.bind]
        | error e => simp [Except.map, Bind.bind, Except.bind]
      · by_cases h2 : c = '('
        · simp only [Parser.takeChar, h1, h2, if_true, if_false]
          rw [flushAtom_prepend o ⟨PState.normal, ca, stk, out, io⟩]
          cases hfa : Parser.flushAtom ⟨PState.normal, ca, stk, out, io⟩ with
          | ok q =>
              simp only [Except.map, Bind.bind, Except.bind]
              by_cases h3 : q.stack.isEmpty = true ∧ q.inOuterList
              · simp [h3]
              · simp only [h3, if_false]
                by_cases h4 : q.stack.isEmpty
                · simp [h4]
                · simp [h4]
          | error e => simp [Except.map, Bind.bind, Except.bind]
        · by_cases h3 : c = ')'
          · simp only [Parser.takeChar, h1, h2, h3, if_true, if_false]
            rw [flushAtom_prepend o ⟨PState.normal, ca, stk, out, io⟩]
            cases hfa : Parser.flushAtom ⟨PState.normal, ca, stk, out, io⟩ with
            | ok q =>
                simp only [Except.map, Bind.bind, Except.bind]
                obtain ⟨qst, qca, qstk, qout, qio⟩ := q
                cases qstk with
                | nil => simp
                | cons list rest =>
                    simp only
                    by_cases h4 : rest.isEmpty = true ∧ qio = true
                    · simp [h4]
                    · simp only [h4, if_false]
                      exact congrArg Except.ok
                        (pushValue_prepend o ⟨qst, qca, rest, qout, qio⟩ (Value.list list))
            | error e => simp [Except.map, Bind.bind, Except.bind]
          · by_cases h4 : c.isWhitespace
            · simp only [Parser.takeChar, h1, h2, h3, h4, if_true, if_false]
              exact flushAtom_prepend o ⟨PState.normal, ca, stk, out, io⟩
            · simp [Parser.takeChar, h1, h2, h3, h4, Except.map]

/-- Prepending values to the output buffer commutes with `take` on a
whole chunk. -/
theorem take_prepend (chunk : List Char) (o : List Value) (p : Parser) :
    Parser.take { p with output := o ++ p.output } chunk =
      (p.take chunk).map fun q => { q with output := o ++ q.output } := by
  induction chunk generalizing p with
  | nil => simp [Parser.take, Except.map]
  | cons c cs ih =>
      simp only [Parser.take]
      rw [takeChar_prepend o p c]
      cases htc : p.takeChar c with
      | error e => simp [Except.map, Bind.bind, Except.bind]
      | ok q =>
          simp only [Except.map, Bind.bind, Except.bind]
          exact ih q

/-- Prepending values to the output buffer commutes with `finish`. -/
theorem finish_prepend (o : List Value) (p : Parser) :
    Parser.finish { p with output := o ++ p.output } =
      p.finish.map fun vs => o ++ vs := by
  obtain ⟨st, ca, stk, out, io⟩ := p
  unfold Parser.finish
  rw [flushAtom_prepend o ⟨st, ca, stk, out, io⟩]
  cases hfa : Parser.flushAtom ⟨st, ca, stk, out, io⟩ with
  | error e => simp [Except.map, Bind.bind, Except.bind]
  | ok q =>
      simp only [Except.map, Bind.bind, Except.bind]
      cases hst : q.state with
      | inString buf escaped => simp
      | normal =>
          by_cases h : q.stack.isEmpty
          · simp [h, hst]
          · simp [h, hst]

/-- `take` distributes over concatenated input. -/
theorem take_append (a b : List Char) (p : Parser) :
    p.take (a ++ b) = p.take a >>= fun q => q.take b := by
  induction a generalizing p with
  | nil => simp [Parser.take, Bind.bind, Except.bind]
  | cons c cs ih =>
      simp only [List.cons_append, Parser.take]
      cases htc : p.takeChar c with
      | error e => simp [Bind.bind, Except.bind]
      | ok q => simp only [Bind.bind, Except.bind]; exact ih q

/-- The chunked run agrees with one `take` over the flattened input
followed by `finish`, with `acc` prepended. -/
theorem runChunks_eq (chunks : List (List Char)) (p : Parser)
    (acc : List Value) :
    runChunks p chunks acc =
      (p.take chunks.flatten >>= Parser.finish).map fun vs => acc ++ vs := by
  induction chunks generalizing p acc with
  | nil =>
      simp only [runChunks, List.flatten_nil, Parser.take]
      cases hf : p.finish with
      | error e => simp [hf, Except.map, Bind.bind, Except.bind]
      | ok vs => simp [hf, Except.map, Bind.bind, Except.bind]
  | cons c cs ih =>
      simp only [runChunks, List.flatten_cons]
      rw [take_append c cs.flatten p]
      cases ht : p.take c with
      | error e => simp [Except.map, Bind.bind, Except.bind]
      | ok q =>
          simp only [Bind.bind, Except.bind, Parser.drain]
          rw [ih]
          have hq : q = { ({ q with output := [] } : Parser) with
              output := q.output ++ ({ q with output := [] } : Parser).output } := by
            simp
          rw [show q.take cs.flatten
              = Parser.take { ({ q with output := [] } : Parser) with
                  output := q.output ++ ({ q with output := [] } : Parser).output }
                  cs.flatten from by rw [← hq]]
          rw [take_prepend cs.flatten q.output { q with output := [] }]
          cases htq : Parser.take { q with output := [] } cs.flatten with
          | error e => simp [Except.map, Bind.bind, Except.bind]
          | ok r =>
              simp only [Except.map, Bind.bind, Except.bind]
              rw [show ({ r with output := q.output ++ r.output } : Parser)
                  = { ({ r with state := r.state } : Parser) with
                      output := q.output ++ ({ r with state := r.state } : Parser).output }
                  from rfl]
              rw [finish_prepend q.output { r with state := r.state }]
              cases hfr : Parser.finish { r with state := r.state } with
              | error e => simp [Except.map]
              | ok vs => simp [Except.map]
end Sexpr

namespace Strutil

/-- `str::find` for a single character, at the character level. -/
def charIdx (c : Char) : List Char → Option Nat
  | [] => none
  | x :: xs => if x = c then some 0 else (charIdx c xs).map (· + 1)

/-- `str::trim`. -/
def trim (l : List Char) : List Char :=
  ((l.dropWhile Char.isWhitespace).reverse.dropWhile Char.isWhitespace).reverse

/-- `str::trim_matches` with a single-character pattern. -/
def trimMatches (c : Char) (l : List Char) : List Char :=
  (((l.dropWhile (· = c)).reverse).dropWhile (· = c)).reverse

/-- Helper for `split_whitespace`: `acc` is the current token, reversed. -/
def splitWsAux : List Char → List Char → List (List Char)
  | [], acc => if acc.isEmpty then [] else [acc.reverse]
  | c :: cs, acc =>
      if c.isWhitespace then
        if acc.isEmpty then splitWsAux cs []
        else acc.reverse :: splitWsAux cs []
      else splitWsAux cs (c :: acc)

/-- `str::split_whitespace` collected into a list of tokens. -/
def splitWs (l : List Char) : List (List Char) := splitWsAux l []

/-- Digit run to natural number. -/
def digitsToNat (l : List Char) : Nat :=
  l.foldl (fun acc c => acc * 10 + (c.toNat - 48)) 0

/-- The fastnum `D128` string parser, modelled on plain decimal literals
(optional sign, digits, at most one decimal point): the exact rational
value is returned.  `D128` keeps 38 significant decimal digits, so this
is exact on every literal this decoder receives. -/
def parseDecimal (l : List Char) : Option Rat :=
  let sr : Int × List Char :=
    match l with
    | [] => (1, [])
    | c :: r => if c = '+' then (1, r) else if c = '-' then (-1, r) else (1, c :: r)
  match charIdx '.' sr.2 with
  | none =>
      if sr.2.isEmpty ∨ ¬ sr.2.all Char.isDigit then none
      else some (mkRat (sr.1 * (digitsToNat sr.2 : Int)) 1)
  | some i =>
      let ip := sr.2.take i
      let fp := sr.2.drop (i + 1)
      if ('.' ∈ fp) ∨ (ip ++ fp).isEmpty ∨ ¬ (ip ++ fp).all Char.isDigit then none
      else some (mkRat (sr.1 * (digitsToNat (ip ++ fp) : Int)) (10 ^ fp.length))

theorem charIdx_not_mem {c : Char} :
    ∀ {l : List Char}, (∀ x ∈ l, x ≠ c) → charIdx c l = none
  | [], _ => rfl
  | x :: xs, h => by
      have hx : ¬ x = c := h x (by simp)
      simp only [charIdx, hx, if_false]
      rw [charIdx_not_mem fun y hy => h y (by simp [hy])]
      rfl

theorem charIdx_append_of_not_mem {c : Char} {l1 : List Char} (l2 : List Char)
    (h : ∀ x ∈ l1, x ≠ c) :
    charIdx c (l1 ++ l2) = (charIdx c l2).map (l1.length + ·) := by
  induction l1 with
  | nil => simp
  | cons x xs ih =>
      have hx : ¬ x = c := h x (by simp)
      simp only [List.cons_append, charIdx, hx, if_false, List.append_eq]
      rw [ih fun y hy => h y (by simp [hy])]
      cases charIdx c l2 with
      | none => rfl
      | some i =>
          simp only [Option.map_some']
          congr 1
          simp
          omega

theorem dropWhile_eq_self {p : Char → Bool} :
    ∀ {l : List Char}, (∀ c ∈ l.head?, p c = false) → l.dropWhile p = l
  | [], _ => rfl
  | c :: t, h => by
      have hc : p c = false := h c rfl
      simp [List.dropWhile, hc]

theorem dropWhile_ws_append_single (l : List Char) :
    (l ++ [' ']).dropWhile Char.isWhitespace =
      if (l.dropWhile Char.isWhitespace).isEmpty then []
      else l.dropWhile Char.isWhitespace ++ [' '] := by
  induction l with
  | nil => rfl
  | cons c cs ih =>
      by_cases hc : c.isWhitespace
      · simpa [List.dropWhile, hc] using ih
      · simp [List.dropWhile, hc]

/-- Appending one space never changes the trimmed text. -/
theorem trim_append_ws (l : List Char) : trim (l ++ [' ']) = trim l := by
  unfold trim
  rw [dropWhile_ws_append_single]
  by_cases he : (l.dropWhile Char.isWhitespace).isEmpty
  · rw [if_pos he]
    have : l.dropWhile Char.isWhitespace = [] := by
      cases hx : l.dropWhile Char.isWhitespace with
      | nil => rfl
      | cons a b => rw [hx] at he; simp at he
    rw [this]
  · rw [if_neg he]
    rw [List.reverse_append]
    have hws : (' ' : Char).isWhitespace = true := by decide
    simp [List.dropWhile, hws]

theorem head?_not_ws_of_tok {l : List Char}
    (h : ∀ c ∈ l, c.isWhitespace = false) :
    ∀ c ∈ l.head?, c.isWhitespace = false := by
  cases l with
  | nil => simp
  | cons a b =>
      intro c hc
      simp only [List.head?] at hc
      cases hc
      exact h a (by simp)

/-- Text with no whitespace at either end is already trimmed. -/
theorem trim_eq_self {l : List Char}
    (h1 : ∀ c ∈ l.head?, c.isWhitespace = false)
    (h2 : ∀ c ∈ l.getLast?, c.isWhitespace = false) : trim l = l := by
  unfold trim
  rw [dropWhile_eq_self h1]
  rw [dropWhile_eq_self (by simpa using h2)]
  exact List.reverse_reverse l

theorem splitWsAux_append_space (a b : List Char) :
    ∀ acc, splitWsAux (a ++ ' ' :: b) acc = splitWsAux a acc ++ splitWs b := by
  induction a with
  | nil =>
      intro acc
      have hws : (' ' : Char).isWhitespace = true := by decide
      by_cases ha : acc.isEmpty
      · simp [splitWsAux, splitWs, hws, ha]
      · simp [splitWsAux, splitWs, hws, ha]
  | cons c cs ih =>
      intro acc
      by_cases hc : c.isWhitespace
      · by_cases ha : acc.isEmpty
        · simp [splitWsAux, hc, ha, ih]
        · simp [splitWsAux, hc, ha, ih]
      · simp [splitWsAux, hc, ih]

theorem splitWs_append_space (a b : List Char) :
    splitWs (a ++ ' ' :: b) = splitWs a ++ splitWs b :=
  splitWsAux_append_space a b []

theorem splitWsAux_no_ws :
    ∀ (tok : List Char), (∀ c ∈ tok, c.isWhitespace = false) →
      ∀ acc : List Char, acc.isEmpty = false ∨ tok ≠ [] →
        splitWsAux tok acc = [acc.reverse ++ tok]
  | [], _, acc, hne => by
      cases hne with
      | inl h => simp [splitWsAux, h]
      | inr h => exact absurd rfl h
  | c :: cs, h, acc, _ => by
      have hc : c.isWhitespace = false := h c (by simp)
      simp only [splitWsAux, hc, Bool.false_eq_true, if_false]
      rw [splitWsAux_no_ws cs (fun y hy => h y (by simp [hy])) (c :: acc)
        (Or.inl rfl)]
      simp

/-- A nonempty whitespace-free token splits into itself. -/
theorem splitWs_single (tok : List Char)
    (h : ∀ c ∈ tok, c.isWhitespace = false) (hne : tok ≠ []) :
    splitWs tok = [tok] := by
  unfold splitWs
  rw [splitWsAux_no_ws tok h [] (Or.inr hne)]
  rfl

/-- Text without the trimmed character at either end is unchanged by
`trim_matches`. -/
theorem trimMatches_eq_self {c : Char} {l : List Char}
    (h : ∀ x ∈ l, x ≠ c) : trimMatches c l = l := by
  unfold trimMatches
  have h1 : ∀ x ∈ l.head?, (x = c : Bool) = false := by
    cases l with
    | nil => simp
    | cons a b =>
        intro x hx
        simp only [List.head?] at hx
        cases hx
        simp [h a (by simp)]
  have h2 : ∀ x ∈ l.reverse.head?, (x = c : Bool) = false := by
    cases hr : l.reverse with
    | nil => simp
    | cons a b =>
        intro x hx
        simp only [List.head?] at hx
        cases hx
        have : a ∈ l := by
          have : a ∈ l.reverse := by rw [hr]; simp
          simpa using this
        simp [h a this]
  rw [dropWhile_eq_self h1, dropWhile_eq_self h2]
  exact List.reverse_reverse l

end Strutil

namespace Ledger

/-- One result of `Ledger::read_either` in `src/ledger.rs`, or an I/O
failure of that read.  `stdout none` is the sentinel decision (marker
line or stdout end-of-file), `stderr none` is stderr end-of-file. -/
inductive ReadResult where
  | stdout (line : Option String)
  | stderr (line : Option String)
  | ioErr (msg : String)
  deriving Repr, DecidableEq

/-- The `LedgerEvent::Done` payload of one command, or `pending` when the
modelled read sequence ends before any terminating decision. -/
inductive Outcome where
  | success
  | stderrErr (msg : String)
  | ioError (msg : String)
  | pending
  deriving Repr, DecidableEq

/-- The per-command inner loop of `run_actor`: the first component is the
list of `LedgerEvent::Line` data events sent, in order; the second is the
completion decision.  `buf` is the accumulated `stderr_lines`.  The
receiver-dropped drain branch is not modelled: the consumer is assumed to
keep listening. -/
def runCommandLoop : List ReadResult → List String → List String × Outcome
  | [], _ => ([], .pending)
  | .stdout (some line) :: rest, buf =>
      let r := runCommandLoop rest buf
      (line :: r.1, r.2)
  | .stdout none :: _, buf =>
      ([], if buf.isEmpty then .success
           else .stderrErr (String.mk (Strutil.trim (String.join buf).data)))
  | .stderr (some line) :: rest, buf =>
      runCommandLoop rest (buf ++ [line])
  | .stderr none :: _, buf =>
      ([], if buf.isEmpty then .ioError "Stderr closed"
           else .stderrErr (String.mk (Strutil.trim (String.join buf).data)))
  | .ioErr m :: _, _ => ([], .ioError m)

/-- The stdout data lines of a read sequence, in arrival order. -/
def stdoutLines (reads : List ReadResult) : List String :=
  reads.filterMap fun r =>
    match r with
    | .stdout (some l) => some l
    | _ => none

/-- The stderr lines of a read sequence, in arrival order. -/
def stderrLines (reads : List ReadResult) : List String :=
  reads.filterMap fun r =>
    match r with
    | .stderr (some l) => some l
    | _ => none

/-- A read that does not terminate the command: a stdout data line or a
stderr data line. -/
def nonTerminal : ReadResult → Bool
  | .stdout (some _) => true
  | .stderr (some _) => true
  | _ => false

theorem runCommandLoop_stdout_marker (pre rest : List ReadResult)
    (buf : List String) (h : ∀ r ∈ pre, nonTerminal r) :
    runCommandLoop (pre ++ ReadResult.stdout none :: rest) buf =
      (stdoutLines pre,
       if (buf ++ stderrLines pre).isEmpty then Outcome.success
       else Outcome.stderrErr (String.mk (Strutil.trim (String.join (buf ++ stderrLines pre)).data))) := by
  induction pre generalizing buf with
  | nil => simp [runCommandLoop, stdoutLines, stderrLines]
  | cons r pre ih =>
      have hr : nonTerminal r := h r (by simp)
      have hpre : ∀ x ∈ pre, nonTerminal x := fun x hx => h x (by simp [hx])
      cases r with
      | stdout l =>
          cases l with
          | some line =>
              simp [runCommandLoop, ih buf hpre, stdoutLines, stderrLines]
          | none => simp [nonTerminal] at hr
      | stderr l =>
          cases l with
          | some line =>
              simp [runCommandLoop, ih (buf ++ [line]) hpre, stdoutLines,
                stderrLines]
          | none => simp [nonTerminal] at hr
      | ioErr m => simp [nonTerminal] at hr

theorem runCommandLoop_stderr_eof (pre rest : List ReadResult)
    (buf : List String) (h : ∀ r ∈ pre, nonTerminal r) :
    runCommandLoop (pre ++ ReadResult.stderr none :: rest) buf =
      (stdoutLines pre,
       if (buf ++ stderrLines pre).isEmpty then Outcome.ioError "Stderr closed"
       else Outcome.stderrErr (String.mk (Strutil.trim (String.join (buf ++ stderrLines pre)).data))) := by
  induction pre generalizing buf with
  | nil => simp [runCommandLoop, stdoutLines, stderrLines]
  | cons r pre ih =>
      have hr : nonTerminal r := h r (by simp)
      have hpre : ∀ x ∈ pre, nonTerminal x := fun x hx => h x (by simp [hx])
      cases r with
      | stdout l =>
          cases l with
          | some line =>
              simp [runCommandLoop, ih buf hpre, stdoutLines, stderrLines]
          | none => simp [nonTerminal] at hr
      | stderr l =>
          cases l with
          | some line =>
              simp [runCommandLoop, ih (buf ++ [line]) hpre, stdoutLines,
                stderrLines]
          | none => simp [nonTerminal] at hr
      | ioErr m => simp [nonTerminal] at hr

end Ledger


/-- `chrono::NaiveDate`, as a plain year/month/day record. -/
structure NaiveDate where
  y : Int
  m : Nat
  d : Nat
  deriving Repr, DecidableEq

/-- Gregorian leap-year rule. -/
def isLeapYear (y : Int) : Bool := y % 4 = 0 ∧ (y % 100 ≠ 0 ∨ y % 400 = 0)

/-- Days in a month of the proleptic Gregorian calendar. -/
def daysInMonth (y : Int) (m : Nat) : Nat :=
  if m = 2 then (if isLeapYear y then 29 else 28)
  else if m = 4 ∨ m = 6 ∨ m = 9 ∨ m = 11 then 30
  else 31

/-- `chrono::NaiveDate::from_ymd_opt`. -/
def NaiveDate.fromYmd? (y : Int) (m d : Nat) : Option NaiveDate :=
  if 1 ≤ m ∧ m ≤ 12 ∧ 1 ≤ d ∧ d ≤ daysInMonth y m then some ⟨y, m, d⟩
  else none

/-- `chrono::NaiveDate::parse_from_str` with format `%Y⟨sep⟩%m⟨sep⟩%d`
(the two formats used are `%Y-%m-%d` and `%Y/%m/%d`): a four-digit year
and one- or two-digit month and day, matching the whole input, validated
against the calendar. -/
def parseDateSep (sep : Char) (l : List Char) : Option NaiveDate :=
  match l.splitOn sep with
  | [ys, ms, ds] =>
      if ys.length = 4 ∧ ys.all Char.isDigit ∧
         1 ≤ ms.length ∧ ms.length ≤ 2 ∧ ms.all Char.isDigit ∧
         1 ≤ ds.length ∧ ds.length ≤ 2 ∧ ds.all Char.isDigit then
        NaiveDate.fromYmd? (Strutil.digitsToNat ys) (Strutil.digitsToNat ms)
          (Strutil.digitsToNat ds)
      else none
  | _ => none

namespace Accounts

/-- `accounts::Account`: ordered account path segments. -/
structure Account where
  segments : List String
  deriving Repr, DecidableEq

/-- `Account::from_segments`. -/
def Account.fromSegments (segments : List String) : Account := ⟨segments⟩

/-- `Account::empty`. -/
def Account.empty : Account := ⟨[]⟩

/-- `str::split` on the `:` character (`acc` is the current piece,
reversed); empty pieces are produced like the Rust iterator does. -/
def splitColon : List Char → List Char → List String
  | [], acc => [String.mk acc.reverse]
  | c :: cs, acc =>
      if c = ':' then String.mk acc.reverse :: splitColon cs []
      else splitColon cs (c :: acc)

/-- `Account::parse`: split on `:` and discard empty segments. -/
def Account.parse (name : String) : Account :=
  ⟨(splitColon name.data []).filter (fun s => ¬ s.isEmpty)⟩

/-- `Account::name` unwraps `segments.last()`; the `Option` result makes
the panic on an empty segment list explicit: `none` is the panicking
case. -/
def Account.name? (a : Account) : Option String := a.segments.getLast?

/-- `Account::is_parent_of`: strict segment-prefix containment. -/
def Account.isParentOf (a b : Account) : Bool :=
  if b.segments.length ≤ a.segments.length then false
  else (a.segments.zip b.segments).all fun p => p.1 = p.2

end Accounts

namespace Transactions

/-- `transactions::ParseAmounError` (source spelling kept).
`InvalidDecimal` carries the offending token in place of the library
error message. -/
inductive ParseAmounError where
  | invalidDecimal (s : String)
  | invalidFormat
  deriving Repr, DecidableEq

/-- `transactions::CurrencyAmount`: exact decimal value and commodity
code. -/
structure CurrencyAmount where
  value : Rat
  commodity : String
  deriving Repr, DecidableEq

/-- `CurrencyAmount::parse`: trim, split on whitespace, strip comma
thousands separators from the leading token, parse it as a decimal;
remaining tokens joined by single spaces and stripped of surrounding
double quotes form the commodity (empty when absent). -/
def CurrencyAmount.parse (amountStr : List Char) :
    Except ParseAmounError CurrencyAmount :=
  let t := Strutil.trim amountStr
  match Strutil.splitWs t with
  | [] => .error .invalidFormat
  | value :: parts =>
      let value := value.filter (fun c => ¬ c = ',')
      match Strutil.parseDecimal value with
      | none => .error (.invalidDecimal (String.mk value))
      | some v =>
          if parts.isEmpty then .ok ⟨v, ""⟩
          else .ok ⟨v, String.mk (Strutil.trimMatches '"' (List.intercalate [' '] parts))⟩

/-- `transactions::Amount`: main currency amount with optional price
clause and optional settlement date. -/
structure Amount where
  value : CurrencyAmount
  price : Option CurrencyAmount
  date : Option NaiveDate
  deriving Repr, DecidableEq

/-- `Amount::parse`.  The brace-delimited clause is parsed as the price,
the bracket-delimited clause as a `%Y/%m/%d` date, and the text cut at
the first `\x7b` (else at the first `[`, else nothing) is the main
currency amount.  Slices with the closing delimiter before the opening
one produce the empty slice here where the Rust range would panic; no
input of this shape reaches the parser in the claims below. -/
def Amount.parse (amountStr : List Char) : Except ParseAmounError Amount := do
  let priceStart := Strutil.charIdx '\x7b' amountStr
  let price ← match priceStart with
    | some ps =>
        match Strutil.charIdx '\x7d' amountStr with
        | none => .error ParseAmounError.invalidFormat
        | some pe =>
            let priceStr := Strutil.trim ((amountStr.drop (ps + 1)).take (pe - (ps + 1)))
            match CurrencyAmount.parse priceStr with
            | .error _ => .error ParseAmounError.invalidFormat
            | .ok p => .ok (some p)
    | none => pure none
  let dateStart := Strutil.charIdx '[' amountStr
  let date ← match dateStart with
    | some ds =>
        match Strutil.charIdx ']' amountStr with
        | none => .error ParseAmounError.invalidFormat
        | some de =>
            let dateStr := Strutil.trim ((amountStr.drop (ds + 1)).take (de - (ds + 1)))
            match parseDateSep '/' dateStr with
            | none => .error ParseAmounError.invalidFormat
            | some d => .ok (some d)
    | none => pure none
  let mainStr := match priceStart with
    | some ps => amountStr.take ps
    | none =>
        match dateStart with
        | some ds => amountStr.take ds
        | none => amountStr
  let value ← CurrencyAmount.parse mainStr
  .ok ⟨value, price, date⟩

/-- `transactions::ParsePostingError`. -/
inductive ParsePostingError where
  | unexpectedLength (expected got : Nat)
  | unexpectedType (pos : Nat) (v : Sexpr.Value)
  | invalidAmount (e : ParseAmounError)
  deriving Repr, DecidableEq

/-- `transactions::Posting`. -/
structure Posting where
  account : Accounts.Account
  amount : Amount
  note : Option String
  deriving Repr, DecidableEq

/-- `Posting::from_sexpr`: at least 4 elements; element 1 is the account
path string, element 2 the amount string, and element 4 the note string
exactly when the list has 5 elements.  Elements 0 and 3 are never
inspected. -/
def Posting.fromSexpr (value : List Sexpr.Value) :
    Except ParsePostingError Posting :=
  match value with
  | _v0 :: v1 :: v2 :: _v3 :: rest =>
      match v1 with
      | .str account =>
          let account := Accounts.Account.parse account
          match v2 with
          | .str amount =>
              match Amount.parse amount.data with
              | .error e => .error (.invalidAmount e)
              | .ok amt =>
                  match rest with
                  | [note'] =>
                      match note' with
                      | .str note => .ok ⟨account, amt, some note⟩
                      | _ => .error (.unexpectedType 4 note')
                  | _ => .ok ⟨account, amt, none⟩
          | _ => .error (.unexpectedType 2 v2)
      | _ => .error (.unexpectedType 1 v1)
  | _ => .error (.unexpectedLength 4 value.length)

/-- `transactions::ParseTransactionError`.  `parseDateError` carries the
offending date text in place of the chrono error value. -/
inductive ParseTransactionError where
  | parseDateError (s : String)
  | unexpectedLength (expected got : Nat)
  | unexpectedType (pos : Nat) (v : Sexpr.Value)
  | postingError (idx : Nat) (e : ParsePostingError)
  deriving Repr, DecidableEq

/-- `transactions::Transaction` (`PathBuf` kept as its text). -/
structure Transaction where
  file : String
  line : Int
  time : NaiveDate
  description : String
  postings : List Posting
  deriving Repr, DecidableEq

/-- The posting loop of `Transaction::from_sexpr` over `value[5..]`:
element `i` of the tail must be a list (else `UnexpectedType(i+5)`) that
decodes as a posting (else `PostingError(i)`). -/
def decodePostings : List Sexpr.Value → Nat →
    Except ParseTransactionError (List Posting)
  | [], _ => .ok []
  | v :: rest, i =>
      match v with
      | .list pl =>
          match Posting.fromSexpr pl with
          | .error e => .error (.postingError i e)
          | .ok p => (decodePostings rest (i + 1)).map (p :: ·)
      | _ => .error (.unexpectedType (i + 5) v)

/-- `Transaction::from_sexpr`: at least 5 elements; element 0 is the file
string, element 1 the line integer, element 2 the `%Y-%m-%d` date
string, element 4 the description string, elements 5.. the postings.
Element 3 is never inspected.  The source reports a non-string element 0
as `UnexpectedType(1, value[1])` (a copy of the element-1 check); that
slip is reproduced faithfully here. -/
def Transaction.fromSexpr (value : List Sexpr.Value) :
    Except ParseTransactionError Transaction :=
  match value with
  | f :: l :: d :: _u :: desc :: rest =>
      match f with
      | .str file =>
          match l with
          | .i64 line =>
              match d with
              | .str date =>
                  match desc with
                  | .str description =>
                      match decodePostings rest 0 with
                      | .error e => .error e
                      | .ok postings =>
                          match parseDateSep '-' date.data with
                          | none => .error (.parseDateError date)
                          | some time => .ok ⟨file, line, time, description, postings⟩
                  | _ => .error (.unexpectedType 4 desc)
              | _ => .error (.unexpectedType 2 d)
          | _ => .error (.unexpectedType 1 l)
      | _ => .error (.unexpectedType 1 l)
  | _ => .error (.unexpectedLength 5 value.length)

end Transactions

namespace Accounts

/-- The `transactions::Amount` that `accounts.rs` compiles against: a
plain decimal value (rust_decimal `Decimal`, modelled as an exact
rational) and a commodity code. -/
structure Amount where
  value : Rat
  commodity : String
  deriving Repr, DecidableEq

/-- `accounts::Balance`: the commodity-to-amount map, as an association
list in insertion order (the Rust `HashMap` is observed only through
per-key lookups). -/
structure Balance where
  byCommodity : List (String × Amount)
  deriving Repr, DecidableEq

/-- `Balance::new`. -/
def Balance.new : Balance := ⟨[]⟩

/-- `entry(commodity).or_insert(zero)` followed by `entry.value += v`:
update the existing entry in place, or insert a fresh zero entry and add
to it. -/
def Balance.updateAssoc (commodity : String) (v : Rat) :
    List (String × Amount) → List (String × Amount)
  | [] => [(commodity, ⟨0 + v, commodity⟩)]
  | (k, a) :: rest =>
      if k = commodity then (k, ⟨a.value + v, a.commodity⟩) :: rest
      else (k, a) :: Balance.updateAssoc commodity v rest

/-- `Balance::add_amount`. -/
def Balance.addAmount (b : Balance) (amount : Amount) : Balance :=
  ⟨Balance.updateAssoc amount.commodity amount.value b.byCommodity⟩

/-- The observed total for one commodity: the stored value, or zero when
the commodity has no entry. -/
def Balance.get (b : Balance) (commodity : String) : Rat :=
  match b.byCommodity.find? (fun p => p.1 = commodity) with
  | some p => p.2.value
  | none => 0

/-- `accounts::TreeNode`. -/
inductive TreeNode where
  | mk (account : Account) (balance : Balance) (children : List TreeNode)

/-- The node account. -/
def TreeNode.account : TreeNode → Account
  | .mk a _ _ => a

/-- The node balance. -/
def TreeNode.balance : TreeNode → Balance
  | .mk _ b _ => b

/-- The node children. -/
def TreeNode.children : TreeNode → List TreeNode
  | .mk _ _ c => c

@[simp]
theorem TreeNode.account_mk (a : Account) (b : Balance) (c : List TreeNode) :
    (TreeNode.mk a b c).account = a := rfl

@[simp]
theorem TreeNode.balance_mk (a : Account) (b : Balance) (c : List TreeNode) :
    (TreeNode.mk a b c).balance = b := rfl

@[simp]
theorem TreeNode.children_mk (a : Account) (b : Balance) (c : List TreeNode) :
    (TreeNode.mk a b c).children = c := rfl

/-- `TreeNode::new`: root with the empty account and empty balance. -/
def TreeNode.new : TreeNode := .mk Account.empty Balance.new []

/-- `TreeNode::clear`. -/
def TreeNode.clear (_t : TreeNode) : TreeNode := TreeNode.new

/-- `children.iter().position(|child| child.account == current)` split
into the prefix of non-matching children, the first matching child and
the remaining children. -/
def findSplit (current : Account) :
    List TreeNode → Option (List TreeNode × TreeNode × List TreeNode)
  | [] => none
  | c :: cs =>
      if c.account = current then some ([], c, cs)
      else (findSplit current cs).map fun r => (c :: r.1, r.2.1, r.2.2)

/-- The first child keyed by `current` (`children.iter().find`), as used
by the lookup observation. -/
def findChild (current : Account) : List TreeNode → Option TreeNode
  | [] => none
  | c :: cs => if c.account = current then some c else findChild current cs

/-- `TreeNode::add_account_recursive`: find or append the child keyed by
the next path prefix and recurse one level deeper. -/
def TreeNode.addAccountRec (account : Account) (t : TreeNode) (depth : Nat) :
    TreeNode :=
  if _h : account.segments.length ≤ depth then t
  else
    let current := Account.fromSegments (account.segments.take (depth + 1))
    match findSplit current t.children with
    | some (pre, c, post) =>
        .mk t.account t.balance
          (pre ++ TreeNode.addAccountRec account c (depth + 1) :: post)
    | none =>
        .mk t.account t.balance
          (t.children ++
            [TreeNode.addAccountRec account (.mk current Balance.new []) (depth + 1)])
  termination_by account.segments.length - depth

/-- `TreeNode::add_account`. -/
def TreeNode.addAccount (t : TreeNode) (account : Account) : TreeNode :=
  TreeNode.addAccountRec account t 0

/-- `TreeNode::add_amount_recursive`: returns the updated node and
whether the target account was found in this subtree; a found target
adds the amount to every node on the descent path on the way back up. -/
def TreeNode.addAmountRec (account : Account) (amount : Amount)
    (t : TreeNode) (depth : Nat) : TreeNode × Bool :=
  if _h : account.segments.length ≤ depth then (t, false)
  else
    let current := Account.fromSegments (account.segments.take (depth + 1))
    match findSplit current t.children with
    | none => (t, false)
    | some (pre, c, post) =>
        if c.account = account then
          (.mk t.account t.balance
            (pre ++ TreeNode.mk c.account (c.balance.addAmount amount) c.children :: post),
           true)
        else
          let r := TreeNode.addAmountRec account amount c (depth + 1)
          if r.2 then
            (.mk t.account t.balance
              (pre ++ TreeNode.mk r.1.account (r.1.balance.addAmount amount) r.1.children :: post),
             true)
          else
            (.mk t.account t.balance (pre ++ r.1 :: post), false)
  termination_by account.segments.length - depth

/-- `TreeNode::add_amount_to_account` (the boolean result is discarded at
the root, whose own balance is never touched). -/
def TreeNode.addAmountToAccount (t : TreeNode) (account : Account)
    (amount : Amount) : TreeNode :=
  (TreeNode.addAmountRec account amount t 0).1

/-- The node of the tree keyed by the absolute path `full`, descending
through the same keys the two recursions above use.  `lookupAux t full
depth` resolves the path suffix below `depth`. -/
def TreeNode.lookupAux (full : List String) (t : TreeNode) (depth : Nat) :
    Option TreeNode :=
  if _h : full.length ≤ depth then some t
  else
    match findChild (Account.fromSegments (full.take (depth + 1))) t.children with
    | none => none
    | some c => TreeNode.lookupAux full c (depth + 1)
  termination_by full.length - depth

/-- The node at absolute path `full`, starting from the root. -/
def TreeNode.lookup (t : TreeNode) (full : List String) : Option TreeNode :=
  TreeNode.lookupAux full t 0

theorem TreeNode.eta (t : TreeNode) :
    TreeNode.mk t.account t.balance t.children = t := by
  cases t
  rfl

theorem findSplit_eq {current : Account} {l pre post : List TreeNode}
    {c : TreeNode} (h : findSplit current l = some (pre, c, post)) :
    l = pre ++ c :: post ∧ c.account = current ∧
      ∀ x ∈ pre, x.account ≠ current := by
  induction l generalizing pre with
  | nil => simp [findSplit] at h
  | cons x xs ih =>
      by_cases hx : x.account = current
      · simp only [findSplit, hx, if_true, Option.some.injEq, Prod.mk.injEq] at h
        obtain ⟨h1, h2, h3⟩ := h
        subst h1; subst h2; subst h3
        exact ⟨rfl, hx, by simp⟩
      · simp only [findSplit, hx, if_false] at h
        cases hfs : findSplit current xs with
        | none => rw [hfs] at h; simp at h
        | some r =>
            obtain ⟨pre', c', post'⟩ := r
            rw [hfs] at h
            simp only [Option.map_some', Option.some.injEq, Prod.mk.injEq] at h
            obtain ⟨h1, h2, h3⟩ := h
            subst h1; subst h2; subst h3
            obtain ⟨e1, e2, e3⟩ := ih hfs
            refine ⟨by rw [e1]; simp, e2, ?_⟩
            intro y hy
            rcases List.mem_cons.mp hy with hy | hy
            · rw [hy]; exact hx
            · exact e3 y hy

theorem findSplit_none {current : Account} {l : List TreeNode}
    (h : findSplit current l = none) : ∀ x ∈ l, x.account ≠ current := by
  induction l with
  | nil => simp
  | cons x xs ih =>
      by_cases hx : x.account = current
      · simp [findSplit, hx] at h
      · simp only [findSplit, hx, if_false] at h
        cases hfs : findSplit current xs with
        | none =>
            intro y hy
            rcases List.mem_cons.mp hy with hy | hy
            · rw [hy]; exact hx
            · exact ih hfs y hy
        | some r => rw [hfs] at h; simp at h

theorem findSplit_of {current : Account} {pre post : List TreeNode}
    {c : TreeNode} (hpre : ∀ x ∈ pre, x.account ≠ current)
    (hc : c.account = current) :
    findSplit current (pre ++ c :: post) = some (pre, c, post) := by
  induction pre with
  | nil => simp [findSplit, hc]
  | cons x xs ih =>
      have hx : x.account ≠ current := hpre x (by simp)
      have ih' := ih fun y hy => hpre y (by simp [hy])
      simp [List.cons_append, findSplit, hx, ih']

theorem findChild_append (k : Account) (l1 l2 : List TreeNode) :
    findChild k (l1 ++ l2) =
      match findChild k l1 with
      | some c => some c
      | none => findChild k l2 := by
  induction l1 with
  | nil => simp [findChild]
  | cons x xs ih =>
      by_cases hx : x.account = k
      · simp [findChild, hx]
      · simp only [List.cons_append, findChild, hx, if_false] at ih ⊢
        exact ih

theorem findChild_cons (k : Account) (c : TreeNode) (l : List TreeNode) :
    findChild k (c :: l) = if c.account = k then some c else findChild k l :=
  rfl

theorem findChild_none {k : Account} {l : List TreeNode}
    (h : ∀ x ∈ l, x.account ≠ k) : findChild k l = none := by
  induction l with
  | nil => simp [findChild]
  | cons x xs ih =>
      rw [findChild_cons]
      simp only [h x (by simp), if_false]
      exact ih fun y hy => h y (by simp [hy])

/-- `findChild` returns the child isolated by `findSplit`. -/
theorem findChild_of_findSplit {k : Account} {l pre post : List TreeNode}
    {c : TreeNode} (h : findSplit k l = some (pre, c, post)) :
    findChild k l = some c := by
  obtain ⟨e1, e2, e3⟩ := findSplit_eq h
  subst e1
  rw [findChild_append]
  rw [findChild_none e3]
  simp [findChild_cons, e2]

/-- `findChild` fails exactly when `findSplit` fails. -/
theorem findChild_of_findSplit_none {k : Account} {l : List TreeNode}
    (h : findSplit k l = none) : findChild k l = none :=
  findChild_none (findSplit_none h)

/-- `add_amount_recursive` never touches the account or the balance of
the node it is called on. -/
theorem addAmountRec_account_balance (a : Account) (amt : Amount)
    (t : TreeNode) (d : Nat) :
    (TreeNode.addAmountRec a amt t d).1.account = t.account ∧
      (TreeNode.addAmountRec a amt t d).1.balance = t.balance := by
  rw [TreeNode.addAmountRec]
  by_cases hd : a.segments.length ≤ d
  · simp [hd]
  · simp only [hd, dite_false]
    cases hfs : findSplit (Account.fromSegments (a.segments.take (d + 1))) t.children with
    | none => simp
    | some r =>
        obtain ⟨pre, c, post⟩ := r
        by_cases hc : c.account = a
        · simp [hc]
        · simp only [hc, if_false]
          by_cases hr : (TreeNode.addAmountRec a amt c (d + 1)).2 = true
          · simp [hr]
          · simp only [Bool.not_eq_true] at hr
            simp [hr]

/-- `add_account_recursive` never touches the account or the balance of
the node it is called on. -/
theorem addAccountRec_account_balance (a : Account) (t : TreeNode) (d : Nat) :
    (TreeNode.addAccountRec a t d).account = t.account ∧
      (TreeNode.addAccountRec a t d).balance = t.balance := by
  rw [TreeNode.addAccountRec]
  by_cases hd : a.segments.length ≤ d
  · simp [hd]
  · simp only [hd, dite_false]
    cases hfs : findSplit (Account.fromSegments (a.segments.take (d + 1))) t.children with
    | none => simp
    | some r =>
        obtain ⟨pre, c, post⟩ := r
        simp

/-- All-or-nothing: when the target path is not found, the tree is
returned unchanged. -/
theorem addAmountRec_false (a : Account) (amt : Amount) :
    ∀ t d, (TreeNode.addAmountRec a amt t d).2 = false →
      (TreeNode.addAmountRec a amt t d).1 = t := by
  intro t d
  induction t, d using TreeNode.addAmountRec.induct a amt with
  | case1 t d hd =>
      intro _
      rw [TreeNode.addAmountRec]
      simp [hd]
  | case2 t d hd current hfs =>
      intro _
      rw [TreeNode.addAmountRec]
      simp [hd, hfs]
  | case3 t d hd current pre c post hfs hc =>
      rw [TreeNode.addAmountRec]
      simp [hd, hfs, hc]
  | case4 t d hd current pre c post hfs hc r hr ih =>
      have hr' : (TreeNode.addAmountRec a amt c (d + 1)).2 = true := hr
      rw [TreeNode.addAmountRec]
      simp only [hd, dite_false, hfs, hc, if_false, hr', if_true]
      intro h
      simp at h
  | case5 t d hd current pre c post hfs hc r hr ih =>
      have hr' : (TreeNode.addAmountRec a amt c (d + 1)).2 = false := by
        have : ¬ (TreeNode.addAmountRec a amt c (d + 1)).2 = true := hr
        simpa using this
      rw [TreeNode.addAmountRec]
      simp only [hd, dite_false, hfs, hc, if_false, hr', Bool.false_eq_true]
      intro _
      have hc1 : (TreeNode.addAmountRec a amt c (d + 1)).1 = c := ih hr'
      rw [hc1]
      rw [← (findSplit_eq hfs).1]
      exact TreeNode.eta t

/-- The running total of one commodity after an `add_amount` update. -/
theorem get_updateAssoc (entries : List (String × Amount))
    (commodity : String) (v : Rat) (c : String) :
    (match (Balance.updateAssoc commodity v entries).find? (fun p => p.1 = c) with
     | some p => p.2.value
     | none => 0) =
      (match entries.find? (fun p => p.1 = c) with
       | some p => p.2.value
       | none => 0) + (if commodity = c then v else 0) := by
  induction entries with
  | nil =>
      by_cases h : commodity = c
      · simp [Balance.updateAssoc, h]
      · simp [Balance.updateAssoc, h]
  | cons kv rest ih =>
      obtain ⟨k, a⟩ := kv
      by_cases hk : k = commodity
      · subst hk
        by_cases hc : k = c
        · subst hc
          simp [Balance.updateAssoc]
        · simp [Balance.updateAssoc, hc]
      · by_cases hc : k = c
        · subst hc
          have hcc : ¬ commodity = k := fun h => hk h.symm
          simp [Balance.updateAssoc, hk, hcc]
        · have hdc : (decide (k = c)) = false := by simp [hc]
          simp only [Balance.updateAssoc, hk, if_false]
          simp only [List.find?_cons, hdc]
          exact ih

theorem Balance.get_addAmount (b : Balance) (amt : Amount) (c : String) :
    (b.addAmount amt).get c =
      b.get c + (if amt.commodity = c then amt.value else 0) := by
  obtain ⟨entries⟩ := b
  unfold Balance.addAmount Balance.get
  exact get_updateAssoc entries amt.commodity amt.value c

theorem Account.fromSegments_inj {l l' : List String}
    (h : Account.fromSegments l = Account.fromSegments l') : l = l' := by
  simpa [Account.fromSegments] using h

/-- `lookupAux` below the guard depth only reads the children. -/
theorem lookupAux_congr_children {t t' : TreeNode} (h : t.children = t'.children)
    {full : List String} {d : Nat} (hd : ¬ full.length ≤ d) :
    TreeNode.lookupAux full t d = TreeNode.lookupAux full t' d := by
  rw [TreeNode.lookupAux, TreeNode.lookupAux]
  simp only [hd, dite_false, h]

/-- Replacing the isolated child by one with the same account is
invisible to `findChild` under any other key. -/
theorem findChild_middle_swap {k : Account} {c e : TreeNode}
    (pre post : List TreeNode) (hacc : c.account = e.account)
    (hk : c.account ≠ k) :
    findChild k (pre ++ c :: post) = findChild k (pre ++ e :: post) := by
  rw [findChild_append, findChild_append]
  cases findChild k pre with
  | some x => rfl
  | none =>
      rw [findChild_cons, findChild_cons]
      simp only [hk, if_false]
      rw [← hacc]
      simp only [hk, if_false]

/-- When the target was found, `add_amount_to_account` adds the amount to
the balance of exactly the nodes keyed by the nonempty prefixes of the
target path, observed here through `lookupAux` at any absolute path. -/
theorem lookupAux_addAmountRec (a : Account) (amt : Amount) :
    ∀ t d, (TreeNode.addAmountRec a amt t d).2 = true →
      ∀ full,
        (TreeNode.lookupAux full (TreeNode.addAmountRec a amt t d).1 d).map
            TreeNode.balance =
          (TreeNode.lookupAux full t d).map fun n =>
            if d < full.length ∧ full = a.segments.take full.length
            then n.balance.addAmount amt else n.balance := by
  intro t d
  induction t, d using TreeNode.addAmountRec.induct a amt with
  | case1 t d hd =>
      intro htrue
      rw [TreeNode.addAmountRec] at htrue
      simp [hd] at htrue
  | case2 t d hd current hfs =>
      intro htrue
      rw [TreeNode.addAmountRec] at htrue
      simp [hd, hfs] at htrue
  | case3 t d hd current pre c post hfs hc =>
      intro _ full
      have heq : TreeNode.addAmountRec a amt t d =
          (TreeNode.mk t.account t.balance
            (pre ++ TreeNode.mk c.account (c.balance.addAmount amt) c.children :: post),
           true) := by
        rw [TreeNode.addAmountRec]
        simp [hd, hfs, hc]
      rw [heq]
      obtain ⟨echild, ecur, epre⟩ := findSplit_eq hfs
      by_cases hf : full.length ≤ d
      · rw [TreeNode.lookupAux, TreeNode.lookupAux]
        simp only [hf, dite_true, Option.map_some']
        have : ¬ (d < full.length ∧ full = a.segments.take full.length) := by
          intro hcontra; omega
        simp [this]
      · rw [TreeNode.lookupAux, TreeNode.lookupAux]
        simp only [hf, dite_false, TreeNode.children_mk]
        rw [echild]
        by_cases hk : Account.fromSegments (full.take (d + 1)) = current
        · have hfc1 : findChild (Account.fromSegments (full.take (d + 1)))
              (pre ++ TreeNode.mk c.account (c.balance.addAmount amt) c.children :: post)
              = some (TreeNode.mk c.account (c.balance.addAmount amt) c.children) := by
            rw [findChild_append, findChild_none (by rw [hk]; exact epre)]
            rw [findChild_cons]
            simp [ecur, hk]
          have hfc2 : findChild (Account.fromSegments (full.take (d + 1)))
              (pre ++ c :: post) = some c := by
            rw [findChild_append, findChild_none (by rw [hk]; exact epre)]
            rw [findChild_cons]
            simp [ecur, hk]
          simp only [hfc1, hfc2]
          have htake : full.take (d + 1) = a.segments.take (d + 1) :=
            Account.fromSegments_inj hk
          have hlen1 : a.segments.length ≤ d + 1 := by
            have hcur : Account.fromSegments (a.segments.take (d + 1)) = a :=
              ecur.symm.trans hc
            have hseg : a.segments.take (d + 1) = a.segments :=
              congrArg Account.segments hcur
            have hlen := congrArg List.length hseg
            simp at hlen
            omega
          by_cases hf2 : full.length ≤ d + 1
          · have hflen : full.length = d + 1 := by omega
            rw [TreeNode.lookupAux, TreeNode.lookupAux]
            simp only [hf2, dite_true, Option.map_some', TreeNode.balance_mk]
            have hcond : d < full.length ∧ full = a.segments.take full.length := by
              constructor
              · omega
              · rw [hflen, ← htake, ← hflen, List.take_length]
            rw [if_pos hcond]
          · have hch : (TreeNode.mk c.account (c.balance.addAmount amt) c.children).children
                = c.children := rfl
            rw [lookupAux_congr_children hch hf2]
            have hcond : ¬ (d < full.length ∧ full = a.segments.take full.length) := by
              intro hcontra
              obtain ⟨h1, h2⟩ := hcontra
              have : full.length ≤ a.segments.length := by
                have := congrArg List.length h2
                simp at this
                omega
              omega
            simp only [hcond, if_false]
          -- done with hk true
        · have hswap := findChild_middle_swap
            (k := Account.fromSegments (full.take (d + 1)))
            (c := c)
            (e := TreeNode.mk c.account (c.balance.addAmount amt) c.children)
            pre post rfl (by rw [ecur]; exact fun h => hk h.symm)
          have hcond : ¬ (d < full.length ∧ full = a.segments.take full.length) := by
            intro hcontra
            obtain ⟨h1, h2⟩ := hcontra
            apply hk
            rw [h2]
            rw [List.take_take]
            have : min (d + 1) full.length = d + 1 := by omega
            rw [this]
          have hfun : (fun n : TreeNode =>
              if d < full.length ∧ full = a.segments.take full.length
              then n.balance.addAmount amt else n.balance) = TreeNode.balance := by
            funext n
            simp [hcond]
          rw [hfun, ← hswap]
  | case4 t d hd current pre c post hfs hc r hr ih =>
      intro _ full
      have hr' : (TreeNode.addAmountRec a amt c (d + 1)).2 = true := hr
      have hacc := addAmountRec_account_balance a amt c (d + 1)
      have heq : TreeNode.addAmountRec a amt t d =
          (TreeNode.mk t.account t.balance
            (pre ++ TreeNode.mk (TreeNode.addAmountRec a amt c (d + 1)).1.account
              ((TreeNode.addAmountRec a amt c (d + 1)).1.balance.addAmount amt)
              (TreeNode.addAmountRec a amt c (d + 1)).1.children :: post),
           true) := by
        rw [TreeNode.addAmountRec]
        simp [hd, hfs, hc, hr']
      rw [heq]
      obtain ⟨echild, ecur, epre⟩ := findSplit_eq hfs
      by_cases hf : full.length ≤ d
      · rw [TreeNode.lookupAux, TreeNode.lookupAux]
        simp only [hf, dite_true, Option.map_some']
        have : ¬ (d < full.length ∧ full = a.segments.take full.length) := by
          intro hcontra; omega
        simp [this]
      · rw [TreeNode.lookupAux, TreeNode.lookupAux]
        simp only [hf, dite_false, TreeNode.children_mk]
        rw [echild]
        by_cases hk : Account.fromSegments (full.take (d + 1)) = current
        · have hfc1 : findChild (Account.fromSegments (full.take (d + 1)))
              (pre ++ TreeNode.mk (TreeNode.addAmountRec a amt c (d + 1)).1.account
                ((TreeNode.addAmountRec a amt c (d + 1)).1.balance.addAmount amt)
                (TreeNode.addAmountRec a amt c (d + 1)).1.children :: post)
              = some (TreeNode.mk (TreeNode.addAmountRec a amt c (d + 1)).1.account
                ((TreeNode.addAmountRec a amt c (d + 1)).1.balance.addAmount amt)
                (TreeNode.addAmountRec a amt c (d + 1)).1.children) := by
            rw [findChild_append, findChild_none (by rw [hk]; exact epre)]
            rw [findChild_cons]
            simp [hacc.1, ecur, hk]
          have hfc2 : findChild (Account.fromSegments (full.take (d + 1)))
              (pre ++ c :: post) = some c := by
            rw [findChild_append, findChild_none (by rw [hk]; exact epre)]
            rw [findChild_cons]
            simp [ecur, hk]
          simp only [hfc1, hfc2]
          have htake : full.take (d + 1) = a.segments.take (d + 1) :=
            Account.fromSegments_inj hk
          by_cases hf2 : full.length ≤ d + 1
          · have hflen : full.length = d + 1 := by omega
            rw [TreeNode.lookupAux, TreeNode.lookupAux]
            simp only [hf2, dite_true, Option.map_some', TreeNode.balance_mk]
            have hcond : d < full.length ∧ full = a.segments.take full.length := by
              constructor
              · omega
              · rw [hflen, ← htake, ← hflen, List.take_length]
            rw [hacc.2, if_pos hcond]
          · have hch : (TreeNode.mk (TreeNode.addAmountRec a amt c (d + 1)).1.account
                ((TreeNode.addAmountRec a amt c (d + 1)).1.balance.addAmount amt)
                (TreeNode.addAmountRec a amt c (d + 1)).1.children).children
                = (TreeNode.addAmountRec a amt c (d + 1)).1.children := rfl
            rw [lookupAux_congr_children hch hf2]
            rw [ih hr' full]
            cases hlc : TreeNode.lookupAux full c (d + 1) with
            | none => simp
            | some x =>
                simp only [Option.map_some']
                congr 1
                by_cases hq : full = a.segments.take full.length
                · have h1 : d + 1 < full.length := by omega
                  have h2 : d < full.length := by omega
                  rw [if_pos ⟨h1, hq⟩, if_pos ⟨h2, hq⟩]
                · rw [if_neg fun hx => hq hx.2, if_neg fun hx => hq hx.2]
        · have hswap := findChild_middle_swap
            (k := Account.fromSegments (full.take (d + 1)))
            (c := c)
            (e := TreeNode.mk (TreeNode.addAmountRec a amt c (d + 1)).1.account
              ((TreeNode.addAmountRec a amt c (d + 1)).1.balance.addAmount amt)
              (TreeNode.addAmountRec a amt c (d + 1)).1.children)
            pre post (by simp [hacc.1]) (by rw [ecur]; exact fun h => hk h.symm)
          have hcond : ¬ (d < full.length ∧ full = a.segments.take full.length) := by
            intro hcontra
            obtain ⟨h1, h2⟩ := hcontra
            apply hk
            rw [h2]
            rw [List.take_take]
            have : min (d + 1) full.length = d + 1 := by omega
            rw [this]
          have hfun : (fun n : TreeNode =>
              if d < full.length ∧ full = a.segments.take full.length
              then n.balance.addAmount amt else n.balance) = TreeNode.balance := by
            funext n
            simp [hcond]
          rw [hfun, ← hswap]
  | case5 t d hd current pre c post hfs hc r hr ih =>
      intro htrue
      have hr' : (TreeNode.addAmountRec a amt c (d + 1)).2 = false := by
        have : ¬ (TreeNode.addAmountRec a amt c (d + 1)).2 = true := hr
        simpa using this
      rw [TreeNode.addAmountRec] at htrue
      simp [hd, hfs, hc, hr'] at htrue

theorem findChild_mem {k : Account} {l : List TreeNode} {c : TreeNode}
    (h : findChild k l = some c) : c ∈ l := by
  induction l with
  | nil => simp [findChild] at h
  | cons x xs ih =>
      rw [findChild_cons] at h
      by_cases hx : x.account = k
      · simp only [hx, if_true, Option.some.injEq] at h
        rw [← h]
        simp
      · simp only [hx, if_false] at h
        simp [ih h]

/-- A fully resolvable target path makes `add_amount_recursive`
succeed. -/
theorem addAmountRec_found (a : Account) (amt : Amount) :
    ∀ t d, d < a.segments.length →
      (TreeNode.lookupAux a.segments t d).isSome →
      (TreeNode.addAmountRec a amt t d).2 = true := by
  intro t d
  induction t, d using TreeNode.addAmountRec.induct a amt with
  | case1 t d hd =>
      intro h1
      omega
  | case2 t d hd current hfs =>
      intro h1 h2
      rw [TreeNode.lookupAux] at h2
      simp only [show ¬ a.segments.length ≤ d from hd, dite_false] at h2
      rw [findChild_of_findSplit_none hfs] at h2
      simp at h2
  | case3 t d hd current pre c post hfs hc =>
      intro _ _
      rw [TreeNode.addAmountRec]
      simp [hd, hfs, hc]
  | case4 t d hd current pre c post hfs hc r hr ih =>
      intro _ _
      have hr' : (TreeNode.addAmountRec a amt c (d + 1)).2 = true := hr
      rw [TreeNode.addAmountRec]
      simp [hd, hfs, hc, hr']
  | case5 t d hd current pre c post hfs hc r hr ih =>
      intro h1 h2
      obtain ⟨echild, ecur, epre⟩ := findSplit_eq hfs
      rw [TreeNode.lookupAux] at h2
      simp only [show ¬ a.segments.length ≤ d from hd, dite_false] at h2
      rw [findChild_of_findSplit hfs] at h2
      by_cases hd2 : d + 1 < a.segments.length
      · exact absurd (ih hd2 h2) hr
      · have hlen : a.segments.length = d + 1 := by omega
        exfalso
        apply hc
        rw [ecur]
        show Account.fromSegments (a.segments.take (d + 1)) = a
        rw [← hlen, List.take_length]
        cases a
        rfl

/-- Conversely, success of `add_amount_recursive` means the target path
resolves in the original tree. -/
theorem addAmountRec_found_lookup (a : Account) (amt : Amount) :
    ∀ t d, (TreeNode.addAmountRec a amt t d).2 = true →
      (TreeNode.lookupAux a.segments t d).isSome := by
  intro t d
  induction t, d using TreeNode.addAmountRec.induct a amt with
  | case1 t d hd =>
      intro htrue
      rw [TreeNode.addAmountRec] at htrue
      simp [hd] at htrue
  | case2 t d hd current hfs =>
      intro htrue
      rw [TreeNode.addAmountRec] at htrue
      simp [hd, hfs] at htrue
  | case3 t d hd current pre c post hfs hc =>
      intro _
      obtain ⟨echild, ecur, epre⟩ := findSplit_eq hfs
      rw [TreeNode.lookupAux]
      simp only [show ¬ a.segments.length ≤ d from hd, dite_false]
      simp only [findChild_of_findSplit hfs]
      have hlen : a.segments.length ≤ d + 1 := by
        have hcur : Account.fromSegments (a.segments.take (d + 1)) = a :=
          ecur.symm.trans hc
        have hseg : a.segments.take (d + 1) = a.segments :=
          congrArg Account.segments hcur
        have hl := congrArg List.length hseg
        simp at hl
        omega
      rw [TreeNode.lookupAux]
      simp [hlen]
  | case4 t d hd current pre c post hfs hc r hr ih =>
      intro _
      have hr' : (TreeNode.addAmountRec a amt c (d + 1)).2 = true := hr
      rw [TreeNode.lookupAux]
      simp only [show ¬ a.segments.length ≤ d from hd, dite_false]
      simp only [findChild_of_findSplit hfs]
      exact ih hr'
  | case5 t d hd current pre c post hfs hc r hr ih =>
      intro htrue
      have hr' : (TreeNode.addAmountRec a amt c (d + 1)).2 = false := by
        have : ¬ (TreeNode.addAmountRec a amt c (d + 1)).2 = true := hr
        simpa using this
      rw [TreeNode.addAmountRec] at htrue
      simp [hd, hfs, hc, hr'] at htrue

/-- `add_amount_to_account` does not change which paths resolve. -/
theorem lookup_isSome_addAmount (t : TreeNode) (a : Account) (amt : Amount)
    (full : List String) :
    (TreeNode.lookup (t.addAmountToAccount a amt) full).isSome =
      (TreeNode.lookup t full).isSome := by
  unfold TreeNode.addAmountToAccount TreeNode.lookup
  by_cases hr : (TreeNode.addAmountRec a amt t 0).2 = true
  · have hmap := lookupAux_addAmountRec a amt t 0 hr full
    cases h1 : TreeNode.lookupAux full (TreeNode.addAmountRec a amt t 0).1 0 with
    | none =>
        cases h2 : TreeNode.lookupAux full t 0 with
        | none => simp
        | some x => rw [h1, h2] at hmap; simp at hmap
    | some y =>
        cases h2 : TreeNode.lookupAux full t 0 with
        | none => rw [h1, h2] at hmap; simp at hmap
        | some x => simp
  · rw [addAmountRec_false a amt t 0 (by simpa using hr)]

/-- Every balance in the tree is the fresh empty balance. -/
def TreeNode.AllEmpty : TreeNode → Prop
  | .mk _ b cs => b = Balance.new ∧ ∀ c ∈ cs, TreeNode.AllEmpty c

theorem allEmpty_new : TreeNode.new.AllEmpty := by
  unfold TreeNode.new
  rw [TreeNode.AllEmpty]
  simp

theorem allEmpty_def (t : TreeNode) :
    t.AllEmpty ↔ t.balance = Balance.new ∧ ∀ c ∈ t.children, TreeNode.AllEmpty c := by
  cases t
  rw [TreeNode.AllEmpty]
  simp

/-- `add_account` creates only fresh empty balances and keeps the
existing ones. -/
theorem allEmpty_addAccountRec (a : Account) :
    ∀ t d, t.AllEmpty → (TreeNode.addAccountRec a t d).AllEmpty := by
  intro t d
  induction t, d using TreeNode.addAccountRec.induct a with
  | case1 t d hd =>
      intro h
      rw [TreeNode.addAccountRec]
      simp [hd, h]
  | case2 t d hd current pre c post hfs ih =>
      intro h
      obtain ⟨echild, ecur, epre⟩ := findSplit_eq hfs
      rw [TreeNode.addAccountRec]
      simp only [hd, dite_false, hfs]
      rw [allEmpty_def] at h ⊢
      refine ⟨h.1, ?_⟩
      intro x hx
      simp only [TreeNode.children_mk] at hx
      rcases List.mem_append.mp hx with hx | hx
      · exact h.2 x (by rw [echild]; exact List.mem_append.mpr (Or.inl hx))
      · rcases List.mem_cons.mp hx with hx | hx
        · rw [hx]
          exact ih (h.2 c (by rw [echild]; simp))
        · exact h.2 x (by rw [echild]; simp [hx])
  | case3 t d hd current hfs ih =>
      intro h
      rw [TreeNode.addAccountRec]
      simp only [hd, dite_false, hfs]
      rw [allEmpty_def] at h ⊢
      refine ⟨h.1, ?_⟩
      intro x hx
      simp only [TreeNode.children_mk] at hx
      rcases List.mem_append.mp hx with hx | hx
      · exact h.2 x hx
      · rcases List.mem_cons.mp hx with hx | hx
        · rw [hx]
          apply ih
          rw [allEmpty_def]
          simp
        · simp at hx

/-- In an all-empty tree, every resolvable node has the empty balance. -/
theorem allEmpty_lookup (full : List String) :
    ∀ (t : TreeNode) (d : Nat), t.AllEmpty →
      ∀ n, TreeNode.lookupAux full t d = some n → n.balance = Balance.new := by
  intro t d
  induction t, d using TreeNode.lookupAux.induct full with
  | case1 t d hd =>
      intro h n hn
      rw [TreeNode.lookupAux] at hn
      simp only [hd, dite_true, Option.some.injEq] at hn
      rw [← hn]
      exact ((allEmpty_def t).mp h).1
  | case2 t d hd hfc =>
      intro h n hn
      rw [TreeNode.lookupAux] at hn
      simp [hd, hfc] at hn
  | case3 t d hd c hfc ih =>
      intro h n hn
      rw [TreeNode.lookupAux] at hn
      simp only [hd, dite_false, hfc] at hn
      exact ih (((allEmpty_def t).mp h).2 c (findChild_mem hfc)) n hn

theorem Balance.get_new (c : String) : Balance.new.get c = 0 := by
  simp [Balance.new, Balance.get]

/-- `add_account` makes its own target path resolvable. -/
theorem lookup_addAccountRec_self (a : Account) :
    ∀ t d, (TreeNode.lookupAux a.segments (TreeNode.addAccountRec a t d) d).isSome := by
  intro t d
  induction t, d using TreeNode.addAccountRec.induct a with
  | case1 t d hd =>
      rw [TreeNode.addAccountRec]
      simp only [hd, dite_true]
      rw [TreeNode.lookupAux]
      simp [hd]
  | case2 t d hd current pre c post hfs ih =>
      obtain ⟨echild, ecur, epre⟩ := findSplit_eq hfs
      rw [TreeNode.addAccountRec]
      simp only [hd, dite_false, hfs]
      rw [TreeNode.lookupAux]
      simp only [hd, dite_false, TreeNode.children_mk]
      have hacc := addAccountRec_account_balance a c (d + 1)
      have hfc : findChild (Account.fromSegments (a.segments.take (d + 1)))
          (pre ++ TreeNode.addAccountRec a c (d + 1) :: post)
          = some (TreeNode.addAccountRec a c (d + 1)) := by
        rw [findChild_append, findChild_none epre, findChild_cons]
        simp [hacc.1, ecur]
      simp only [hfc]
      exact ih
  | case3 t d hd current hfs ih =>
      rw [TreeNode.addAccountRec]
      simp only [hd, dite_false, hfs]
      rw [TreeNode.lookupAux]
      simp only [hd, dite_false, TreeNode.children_mk]
      have hacc := addAccountRec_account_balance a
        (TreeNode.mk (Account.fromSegments (a.segments.take (d + 1))) Balance.new []) (d + 1)
      have hfc : findChild (Account.fromSegments (a.segments.take (d + 1)))
          (t.children ++ [TreeNode.addAccountRec a
            (TreeNode.mk (Account.fromSegments (a.segments.take (d + 1))) Balance.new []) (d + 1)])
          = some (TreeNode.addAccountRec a
            (TreeNode.mk (Account.fromSegments (a.segments.take (d + 1))) Balance.new []) (d + 1)) := by
        rw [findChild_append, findChild_none (findSplit_none hfs), findChild_cons]
        simp [hacc.1]
      simp only [hfc]
      exact ih

/-- `add_account` keeps every already-resolvable path resolvable. -/
theorem lookup_addAccountRec_mono (a : Account) :
    ∀ t d, ∀ full, (TreeNode.lookupAux full t d).isSome →
      (TreeNode.lookupAux full (TreeNode.addAccountRec a t d) d).isSome := by
  intro t d
  induction t, d using TreeNode.addAccountRec.induct a with
  | case1 t d hd =>
      intro full h
      rw [TreeNode.addAccountRec]
      simp only [hd, dite_true]
      exact h
  | case2 t d hd current pre c post hfs ih =>
      intro full h
      obtain ⟨echild, ecur, epre⟩ := findSplit_eq hfs
      have hacc := addAccountRec_account_balance a c (d + 1)
      rw [TreeNode.addAccountRec]
      simp only [hd, dite_false, hfs]
      by_cases hf : full.length ≤ d
      · rw [TreeNode.lookupAux]
        simp [hf]
      · rw [TreeNode.lookupAux] at h ⊢
        simp only [hf, dite_false, TreeNode.children_mk] at h ⊢
        rw [echild] at h
        by_cases hk : Account.fromSegments (full.take (d + 1)) = current
        · have hfc1 : findChild (Account.fromSegments (full.take (d + 1)))
              (pre ++ c :: post) = some c := by
            rw [findChild_append, findChild_none (by rw [hk]; exact epre), findChild_cons]
            simp [ecur, hk]
          have hfc2 : findChild (Account.fromSegments (full.take (d + 1)))
              (pre ++ TreeNode.addAccountRec a c (d + 1) :: post)
              = some (TreeNode.addAccountRec a c (d + 1)) := by
            rw [findChild_append, findChild_none (by rw [hk]; exact epre), findChild_cons]
            simp [hacc.1, ecur, hk]
          simp only [hfc1] at h
          simp only [hfc2]
          exact ih full h
        · have hswap := findChild_middle_swap
            (k := Account.fromSegments (full.take (d + 1)))
            (c := c) (e := TreeNode.addAccountRec a c (d + 1))
            pre post (by rw [hacc.1]) (by rw [ecur]; exact fun hx => hk hx.symm)
          rw [← hswap]
          exact h
  | case3 t d hd current hfs ih =>
      intro full h
      rw [TreeNode.addAccountRec]
      simp only [hd, dite_false, hfs]
      by_cases hf : full.length ≤ d
      · rw [TreeNode.lookupAux]
        simp [hf]
      · rw [TreeNode.lookupAux] at h ⊢
        simp only [hf, dite_false, TreeNode.children_mk] at h ⊢
        cases hfc : findChild (Account.fromSegments (full.take (d + 1))) t.children with
        | none => rw [hfc] at h; simp at h
        | some x =>
            rw [hfc] at h
            rw [findChild_append, hfc]
            exact h

/-- Decidable equality for `TreeNode` (handles the nested children
list). -/
def TreeNode.decEqNode : (a b : TreeNode) → Decidable (a = b)
  | .mk a1 b1 c1, .mk a2 b2 c2 =>
      match decEq a1 a2 with
      | .isFalse h => .isFalse (by simp [h])
      | .isTrue h1 =>
          match decEq b1 b2 with
          | .isFalse h => .isFalse (by simp [h])
          | .isTrue h2 =>
              match c1, c2 with
              | [], [] => .isTrue (by simp [h1, h2])
              | [], _ :: _ => .isFalse (by simp [h1, h2])
              | _ :: _, [] => .isFalse (by simp [h1, h2])
              | x :: xs, y :: ys =>
                  match TreeNode.decEqNode x y,
                      TreeNode.decEqNode (.mk a1 b1 xs) (.mk a2 b2 ys) with
                  | .isTrue hx, .isTrue hxs => .isTrue (by simp_all)
                  | .isFalse hx, _ => .isFalse (by simp_all)
                  | _, .isFalse hxs => .isFalse (by simp_all)

instance : DecidableEq TreeNode := TreeNode.decEqNode

/-- Fuel-indexed structural version of `add_account_recursive`, used so
that concrete instances evaluate inside the kernel. -/
def TreeNode.addAccountFuel (account : Account) :
    Nat → TreeNode → Nat → TreeNode
  | 0, t, _ => t
  | fuel + 1, t, depth =>
      if account.segments.length ≤ depth then t
      else
        let current := Account.fromSegments (account.segments.take (depth + 1))
        match findSplit current t.children with
        | some (pre, c, post) =>
            .mk t.account t.balance
              (pre ++ TreeNode.addAccountFuel account fuel c (depth + 1) :: post)
        | none =>
            .mk t.account t.balance
              (t.children ++
                [TreeNode.addAccountFuel account fuel (.mk current Balance.new []) (depth + 1)])

theorem addAccountRec_eq_fuel (account : Account) :
    ∀ (fuel : Nat) (t : TreeNode) (depth : Nat),
      account.segments.length - depth ≤ fuel →
      TreeNode.addAccountRec account t depth =
        TreeNode.addAccountFuel account fuel t depth := by
  intro fuel
  induction fuel with
  | zero =>
      intro t depth h
      have hd : account.segments.length ≤ depth := by omega
      rw [TreeNode.addAccountRec]
      simp [hd, TreeNode.addAccountFuel]
  | succ fuel ih =>
      intro t depth h
      rw [TreeNode.addAccountRec]
      by_cases hd : account.segments.length ≤ depth
      · simp [hd, TreeNode.addAccountFuel]
      · simp only [hd, dite_false, TreeNode.addAccountFuel, if_false]
        have hfuel : account.segments.length - (depth + 1) ≤ fuel := by omega
        cases hfs : findSplit
            (Account.fromSegments (account.segments.take (depth + 1))) t.children with
        | some r =>
            obtain ⟨pre, c, post⟩ := r
            simp only
            rw [ih c (depth + 1) hfuel]
        | none =>
            simp only
            rw [ih _ (depth + 1) hfuel]

/-- `TreeNode::add_account` through the fuel evaluator. -/
theorem addAccount_eval (t : TreeNode) (a : Account) :
    t.addAccount a = TreeNode.addAccountFuel a a.segments.length t 0 :=
  addAccountRec_eq_fuel a a.segments.length t 0 (by omega)

/-- Fuel-indexed structural version of `add_amount_recursive`. -/
def TreeNode.addAmountFuel (account : Account) (amount : Amount) :
    Nat → TreeNode → Nat → TreeNode × Bool
  | 0, t, _ => (t, false)
  | fuel + 1, t, depth =>
      if account.segments.length ≤ depth then (t, false)
      else
        let current := Account.fromSegments (account.segments.take (depth + 1))
        match findSplit current t.children with
        | none => (t, false)
        | some (pre, c, post) =>
            if c.account = account then
              (.mk t.account t.balance
                (pre ++ TreeNode.mk c.account (c.balance.addAmount amount) c.children :: post),
               true)
            else
              let r := TreeNode.addAmountFuel account amount fuel c (depth + 1)
              if r.2 then
                (.mk t.account t.balance
                  (pre ++ TreeNode.mk r.1.account (r.1.balance.addAmount amount) r.1.children :: post),
                 true)
              else
                (.mk t.account t.balance (pre ++ r.1 :: post), false)

theorem addAmountRec_eq_fuel (account : Account) (amount : Amount) :
    ∀ (fuel : Nat) (t : TreeNode) (depth : Nat),
      account.segments.length - depth ≤ fuel →
      TreeNode.addAmountRec account amount t depth =
        TreeNode.addAmountFuel account amount fuel t depth := by
  intro fuel
  induction fuel with
  | zero =>
      intro t depth h
      have hd : account.segments.length ≤ depth := by omega
      rw [TreeNode.addAmountRec]
      simp [hd, TreeNode.addAmountFuel]
  | succ fuel ih =>
      intro t depth h
      rw [TreeNode.addAmountRec]
      by_cases hd : account.segments.length ≤ depth
      · simp [hd, TreeNode.addAmountFuel]
      · simp only [hd, dite_false, TreeNode.addAmountFuel, if_false]
        have hfuel : account.segments.length - (depth + 1) ≤ fuel := by omega
        cases hfs : findSplit
            (Account.fromSegments (account.segments.take (depth + 1))) t.children with
        | none => simp only
        | some r =>
            obtain ⟨pre, c, post⟩ := r
            simp only
            rw [ih c (depth + 1) hfuel]

/-- `TreeNode::add_amount_to_account` through the fuel evaluator. -/
theorem addAmount_eval (t : TreeNode) (a : Account) (amt : Amount) :
    t.addAmountToAccount a amt =
      (TreeNode.addAmountFuel a amt a.segments.length t 0).1 := by
  unfold TreeNode.addAmountToAccount
  rw [addAmountRec_eq_fuel a amt a.segments.length t 0 (by omega)]

/-- Fuel-indexed structural version of the lookup observation. -/
def TreeNode.lookupFuel (full : List String) :
    Nat → TreeNode → Nat → Option TreeNode
  | 0, t, _ => some t
  | fuel + 1, t, depth =>
      if full.length ≤ depth then some t
      else
        match findChild (Account.fromSegments (full.take (depth + 1))) t.children with
        | none => none
        | some c => TreeNode.lookupFuel full fuel c (depth + 1)

theorem lookupAux_eq_fuel (full : List String) :
    ∀ (fuel : Nat) (t : TreeNode) (depth : Nat),
      full.length - depth ≤ fuel →
      TreeNode.lookupAux full t depth = TreeNode.lookupFuel full fuel t depth := by
  intro fuel
  induction fuel with
  | zero =>
      intro t depth h
      have hd : full.length ≤ depth := by omega
      rw [TreeNode.lookupAux]
      simp [hd, TreeNode.lookupFuel]
  | succ fuel ih =>
      intro t depth h
      rw [TreeNode.lookupAux]
      by_cases hd : full.length ≤ depth
      · simp [hd, TreeNode.lookupFuel]
      · simp only [hd, dite_false, TreeNode.lookupFuel, if_false]
        have hfuel : full.length - (depth + 1) ≤ fuel := by omega
        cases hfc : findChild
            (Account.fromSegments (full.take (depth + 1))) t.children with
        | none => simp only
        | some c =>
            simp only
            exact ih c (depth + 1) hfuel

/-- The lookup observation through the fuel evaluator. -/
theorem lookup_eval (t : TreeNode) (full : List String) :
    t.lookup full = TreeNode.lookupFuel full full.length t 0 :=
  lookupAux_eq_fuel full full.length t 0 (by omega)


/-- The per-commodity total of the postings lying in the subtree rooted
at path `full` (the account itself or any descendant). -/
def postingsSum (P : List (Account × Amount)) (full : List String)
    (c : String) : Rat :=
  ((P.filter fun pr =>
      decide (full = pr.1.segments.take full.length ∧ pr.2.commodity = c)).map
    fun pr => pr.2.value).sum

theorem postingsSum_nil (full : List String) (c : String) :
    postingsSum [] full c = 0 := rfl

theorem postingsSum_cons (a : Account) (amt : Amount)
    (Q : List (Account × Amount)) (full : List String) (c : String) :
    postingsSum ((a, amt) :: Q) full c =
      (if full = a.segments.take full.length ∧ amt.commodity = c
       then amt.value else 0) + postingsSum Q full c := by
  unfold postingsSum
  rw [List.filter_cons]
  by_cases h : full = a.segments.take full.length ∧ amt.commodity = c
  · rw [if_pos (decide_eq_true h), if_pos h]
    simp
  · rw [if_neg (fun hx => h (of_decide_eq_true hx)), if_neg h]
    simp

/-- One `add_amount_to_account` call adds the amount to the observed
total of a node exactly when the node path is a prefix of the posted
path and the commodities agree. -/
theorem step_get (t : TreeNode) (a : Account) (amt : Amount)
    (full : List String) (c : String) (hfull : full ≠ [])
    (hpath : a.segments ≠ [] → (TreeNode.lookup t a.segments).isSome) :
    (TreeNode.lookup (t.addAmountToAccount a amt) full).map
        (fun n => n.balance.get c) =
      (TreeNode.lookup t full).map fun n =>
        n.balance.get c +
          (if full = a.segments.take full.length ∧ amt.commodity = c
           then amt.value else 0) := by
  unfold TreeNode.addAmountToAccount TreeNode.lookup
  by_cases ha : a.segments = []
  · have hnoop : TreeNode.addAmountRec a amt t 0 = (t, false) := by
      rw [TreeNode.addAmountRec]
      simp [ha]
    rw [hnoop]
    cases hl : TreeNode.lookupAux full t 0 with
    | none => simp
    | some n =>
        simp only [Option.map_some', Option.some.injEq]
        have hq : ¬ (full = a.segments.take full.length ∧ amt.commodity = c) := by
          intro hx
          apply hfull
          rw [hx.1, ha, List.take_nil]
        rw [if_neg hq]
        simp
  · have hsome := hpath ha
    have hlen : 0 < a.segments.length := by
      cases hseg : a.segments with
      | nil => exact absurd hseg ha
      | cons x xs => simp [hseg]
    have htrue := addAmountRec_found a amt t 0 hlen hsome
    have hmap := lookupAux_addAmountRec a amt t 0 htrue full
    cases hl2 : TreeNode.lookupAux full (TreeNode.addAmountRec a amt t 0).1 0 with
    | none =>
        cases hl : TreeNode.lookupAux full t 0 with
        | none => simp
        | some n => rw [hl2, hl] at hmap; simp at hmap
    | some n' =>
        cases hl : TreeNode.lookupAux full t 0 with
        | none => rw [hl2, hl] at hmap; simp at hmap
        | some n =>
            rw [hl2, hl] at hmap
            simp only [Option.map_some', Option.some.injEq] at hmap
            simp only [Option.map_some', Option.some.injEq]
            rw [hmap]
            have hc0 : 0 < full.length := by
              cases full with
              | nil => exact absurd rfl hfull
              | cons x xs => simp
            by_cases hq : full = a.segments.take full.length
            · rw [if_pos ⟨hc0, hq⟩]
              rw [Balance.get_addAmount]
              by_cases hcc : amt.commodity = c
              · have hand : full = a.segments.take full.length ∧
                    amt.commodity = c := ⟨hq, hcc⟩
                rw [if_pos hcc, if_pos hand]
              · have hand : ¬ (full = a.segments.take full.length ∧
                    amt.commodity = c) := fun hx => hcc hx.2
                rw [if_neg hcc, if_neg hand]
            · rw [if_neg fun hx => hq hx.2, if_neg fun hx => hq hx.1]
              simp

/-- Folding `add_amount_to_account` over a list of postings whose target
paths all resolve adds the filtered per-commodity sum to the observed
total of every node. -/
theorem foldl_addAmount_get (c : String) :
    ∀ (Q : List (Account × Amount)) (t : TreeNode) (full : List String),
      full ≠ [] →
      (∀ pr ∈ Q, pr.1.segments ≠ [] →
        (TreeNode.lookup t pr.1.segments).isSome) →
      (TreeNode.lookup
          (Q.foldl (fun acc pr => acc.addAmountToAccount pr.1 pr.2) t) full).map
          (fun n => n.balance.get c) =
        (TreeNode.lookup t full).map fun n =>
          n.balance.get c + postingsSum Q full c := by
  intro Q
  induction Q with
  | nil =>
      intro t full hfull hpaths
      simp [postingsSum]
  | cons pr Q ih =>
      intro t full hfull hpaths
      obtain ⟨a, amt⟩ := pr
      simp only [List.foldl_cons]
      have hstep := step_get t a amt full c hfull (hpaths (a, amt) (by simp))
      have hpaths' : ∀ pr ∈ Q, pr.1.segments ≠ [] →
          (TreeNode.lookup (t.addAmountToAccount a amt) pr.1.segments).isSome := by
        intro pr hpr hne
        rw [lookup_isSome_addAmount]
        exact hpaths pr (by simp [hpr]) hne
      rw [ih (t.addAmountToAccount a amt) full hfull hpaths']
      cases hl : TreeNode.lookup t full with
      | none =>
          have hnone : TreeNode.lookup (t.addAmountToAccount a amt) full = none := by
            have hs := lookup_isSome_addAmount t a amt full
            rw [hl] at hs
            simp only [Option.isSome_none] at hs
            cases hx : TreeNode.lookup (t.addAmountToAccount a amt) full with
            | none => rfl
            | some y => rw [hx] at hs; simp at hs
          rw [hnone]
          simp
      | some n =>
          have hs := lookup_isSome_addAmount t a amt full
          rw [hl] at hs
          cases hl2 : TreeNode.lookup (t.addAmountToAccount a amt) full with
          | none => rw [hl2] at hs; simp at hs
          | some n' =>
              rw [hl2, hl] at hstep
              simp only [Option.map_some', Option.some.injEq] at hstep
              simp only [Option.map_some', Option.some.injEq]
              rw [hstep, postingsSum_cons]
              ring

/-- The tree of the rollup recipe: `add_account` for every posted path,
then `add_amount_to_account` for every posting. -/
def buildTree (P : List (Account × Amount)) : TreeNode :=
  P.foldl (fun t pr => t.addAmountToAccount pr.1 pr.2)
    (P.foldl (fun t pr => t.addAccount pr.1) TreeNode.new)
/-- The rollup recipe through the fuel evaluators. -/
theorem buildTree_eval (P : List (Account × Amount)) :
    buildTree P =
      P.foldl (fun t pr =>
          (TreeNode.addAmountFuel pr.1 pr.2 pr.1.segments.length t 0).1)
        (P.foldl (fun t pr =>
          TreeNode.addAccountFuel pr.1 pr.1.segments.length t 0) TreeNode.new) := by
  unfold buildTree
  congr 1
  · funext t pr
    exact addAmount_eval t pr.1 pr.2
  · congr 1
    funext t pr
    exact addAccount_eval t pr.1

theorem allEmpty_foldl_addAccount :
    ∀ (P : List (Account × Amount)) (t : TreeNode), t.AllEmpty →
      (P.foldl (fun t pr => t.addAccount pr.1) t).AllEmpty := by
  intro P
  induction P with
  | nil => intro t h; simpa using h
  | cons pr Q ih =>
      intro t h
      simp only [List.foldl_cons]
      exact ih _ (allEmpty_addAccountRec pr.1 t 0 h)

theorem lookup_foldl_addAccount_mono :
    ∀ (P : List (Account × Amount)) (t : TreeNode) (full : List String),
      (TreeNode.lookup t full).isSome →
      (TreeNode.lookup (P.foldl (fun t pr => t.addAccount pr.1) t) full).isSome := by
  intro P
  induction P with
  | nil => intro t full h; simpa using h
  | cons pr Q ih =>
      intro t full h
      simp only [List.foldl_cons]
      exact ih _ full (lookup_addAccountRec_mono pr.1 t 0 full h)

theorem lookup_foldl_addAccount_mem :
    ∀ (P : List (Account × Amount)) (t : TreeNode) (pr : Account × Amount),
      pr ∈ P →
      (TreeNode.lookup (P.foldl (fun t pr => t.addAccount pr.1) t)
        pr.1.segments).isSome := by
  intro P
  induction P with
  | nil => intro t pr h; simp at h
  | cons q Q ih =>
      intro t pr h
      simp only [List.foldl_cons]
      rcases List.mem_cons.mp h with h | h
      · subst h
        exact lookup_foldl_addAccount_mono Q _ _
          (lookup_addAccountRec_self pr.1 t 0)
      · exact ih _ pr h

/-- The rollup invariant for every node strictly below the root. -/
theorem buildTree_get (P : List (Account × Amount)) (full : List String)
    (c : String) (n : TreeNode) (hfull : full ≠ [])
    (hn : TreeNode.lookup (buildTree P) full = some n) :
    n.balance.get c = postingsSum P full c := by
  unfold buildTree at hn
  have hempty : (P.foldl (fun t pr => t.addAccount pr.1) TreeNode.new).AllEmpty :=
    allEmpty_foldl_addAccount P TreeNode.new allEmpty_new
  have hpaths : ∀ pr ∈ P, pr.1.segments ≠ [] →
      (TreeNode.lookup (P.foldl (fun t pr => t.addAccount pr.1) TreeNode.new)
        pr.1.segments).isSome := by
    intro pr hpr _
    exact lookup_foldl_addAccount_mem P TreeNode.new pr hpr
  have hG := foldl_addAmount_get c P
    (P.foldl (fun t pr => t.addAccount pr.1) TreeNode.new) full hfull hpaths
  rw [hn] at hG
  cases hl : TreeNode.lookup
      (P.foldl (fun t pr => t.addAccount pr.1) TreeNode.new) full with
  | none => rw [hl] at hG; simp at hG
  | some n0 =>
      rw [hl] at hG
      simp only [Option.map_some', Option.some.injEq] at hG
      have h0 : n0.balance = Balance.new :=
        allEmpty_lookup full _ 0 hempty n0 hl
      rw [hG, h0, Balance.get_new]
      ring

end Accounts

namespace Sexpr

/-- Kind observations on parsed values. -/
def Value.isStr : Value → Bool
  | .str _ => true
  | _ => false

def Value.isI64 : Value → Bool
  | .i64 _ => true
  | _ => false

def Value.isList : Value → Bool
  | .list _ => true
  | _ => false

end Sexpr

/-- The worked rollup example of the specification: 100.00 USD to
assets:bank:checking, 200.00 USD to assets:bank:savings, 50.00 USD to
assets:cash. -/
def c5exPostings : List (Accounts.Account × Accounts.Amount) :=
  [ (Accounts.Account.fromSegments ["assets", "bank", "checking"], ⟨100, "USD"⟩),
    (Accounts.Account.fromSegments ["assets", "bank", "savings"], ⟨200, "USD"⟩),
    (Accounts.Account.fromSegments ["assets", "cash"], ⟨50, "USD"⟩) ]

/-- The mixed-commodity sibling example: USD on checking, EUR on cash. -/
def c5exMixed : List (Accounts.Account × Accounts.Amount) :=
  [ (Accounts.Account.fromSegments ["assets", "bank", "checking"], ⟨100, "USD"⟩),
    (Accounts.Account.fromSegments ["assets", "cash"], ⟨50, "EUR"⟩) ]

namespace Strutil

theorem charIdx_cons_self (c : Char) (xs : List Char) : charIdx c (c :: xs) = some 0 := by
  simp [charIdx]

theorem charIdx_cons_ne {x c : Char} (h : x ≠ c) (xs : List Char) :
    charIdx c (x :: xs) = (charIdx c xs).map (· + 1) := by
  simp [charIdx, h]

theorem getLast?_ws_of_tok {l : List Char} (h : ∀ c ∈ l, c.isWhitespace = false) :
    ∀ c ∈ l.getLast?, c.isWhitespace = false := by
  intro c hc
  have : c ∈ l := by
    cases hl : l.getLast? with
    | none => rw [hl] at hc; cases hc
    | some a =>
        rw [hl] at hc
        cases hc
        exact List.mem_of_mem_getLast? hl
  exact h c this

end Strutil

theorem intercalate_singleton (s x : List Char) : List.intercalate s [x] = x := by
  simp [List.intercalate]

namespace Transactions

theorem CurrencyAmount.parse_trim_congr {a b : List Char}
    (h : Strutil.trim a = Strutil.trim b) :
    CurrencyAmount.parse a = CurrencyAmount.parse b := by
  simp only [CurrencyAmount.parse]
  rw [h]

theorem currencyAmount_parse_single (dec : List Char) (v : Rat)
    (hws : ∀ c ∈ dec, c.isWhitespace = false) (hne : dec ≠ [])
    (hv : Strutil.parseDecimal (dec.filter (fun c => ¬ c = ',')) = some v) :
    CurrencyAmount.parse dec = .ok ⟨v, ""⟩ := by
  have ht : Strutil.trim dec = dec :=
    Strutil.trim_eq_self (Strutil.head?_not_ws_of_tok hws) (Strutil.getLast?_ws_of_tok hws)
  simp only [decide_not] at hv
  simp only [CurrencyAmount.parse, ht, Strutil.splitWs_single dec hws hne]
  simp [hv]

theorem currencyAmount_parse_pair (dec com : List Char) (v : Rat)
    (hd : ∀ c ∈ dec, c.isWhitespace = false) (hdne : dec ≠ [])
    (hc : ∀ c ∈ com, c.isWhitespace = false) (hcne : com ≠ [])
    (hv : Strutil.parseDecimal (dec.filter (fun c => ¬ c = ',')) = some v) :
    CurrencyAmount.parse (dec ++ ' ' :: com) =
      .ok ⟨v, String.mk (Strutil.trimMatches '"' com)⟩ := by
  have ht : Strutil.trim (dec ++ ' ' :: com) = dec ++ ' ' :: com := by
    apply Strutil.trim_eq_self
    · cases dec with
      | nil => exact absurd rfl hdne
      | cons a t =>
          intro c hcm
          simp only [List.cons_append, List.head?] at hcm
          cases hcm
          exact hd a (by simp)
    · rw [List.getLast?_append_of_ne_nil dec (by simp)]
      have : (' ' :: com) = [' '] ++ com := rfl
      rw [this, List.getLast?_append_of_ne_nil [' '] hcne]
      exact Strutil.getLast?_ws_of_tok hc
  have hsplit : Strutil.splitWs (dec ++ ' ' :: com) = [dec, com] := by
    rw [Strutil.splitWs_append_space, Strutil.splitWs_single dec hd hdne,
        Strutil.splitWs_single com hc hcne]
    rfl
  simp only [decide_not] at hv
  simp only [CurrencyAmount.parse, ht, hsplit]
  simp [hv, intercalate_singleton]

end Transactions

namespace Strutil

theorem parseDecimal_digits (ip fp : List Char)
    (hip : ∀ c ∈ ip, c.isDigit = true) (hne : ip ≠ [])
    (hfp : ∀ c ∈ fp, c.isDigit = true) :
    parseDecimal (ip ++ '.' :: fp) =
      some (mkRat (digitsToNat (ip ++ fp)) (10 ^ fp.length)) := by
  obtain ⟨a, t, rfl⟩ : ∃ a t, ip = a :: t := by
    cases ip with
    | nil => exact absurd rfl hne
    | cons a t => exact ⟨a, t, rfl⟩
  have ha : a.isDigit = true := hip a (by simp)
  have hap : a ≠ '+' := by rintro rfl; simp at ha
  have ham : a ≠ '-' := by rintro rfl; simp at ha
  have hdot : ∀ c ∈ (a :: t), c ≠ '.' := by
    intro c hc
    have := hip c hc
    rintro rfl
    simp at this
  have hidx : charIdx '.' (a :: (t ++ '.' :: fp)) = some (t.length + 1) := by
    rw [← List.cons_append, charIdx_append_of_not_mem _ hdot, charIdx_cons_self]
    simp
  have htake : List.take (t.length + 1) (a :: (t ++ '.' :: fp)) = a :: t := by
    rw [← List.cons_append]
    exact List.take_left' (by simp)
  have hdrop : List.drop (t.length + 1 + 1) (a :: (t ++ '.' :: fp)) = fp := by
    have : a :: (t ++ '.' :: fp) = ((a :: t) ++ ['.']) ++ fp := by simp
    rw [this]
    exact List.drop_left' (by simp)
  have hmem : ('.' : Char) ∉ fp := by
    intro hm
    have := hfp '.' hm
    simp at this
  have hall : ((a :: t) ++ fp).all Char.isDigit = true := by
    rw [List.all_eq_true]
    intro c hc
    rcases List.mem_append.mp hc with h | h
    · exact hip c h
    · exact hfp c h
  simp only [parseDecimal, List.cons_append]
  simp only [hap, ham, if_false, hidx, htake, hdrop]
  rw [if_neg]
  · simp
  · simp [hmem, List.all_eq_true]
    exact ⟨ha, fun x hx => hip x (by simp [hx]), hfp⟩

end Strutil

namespace Transactions

/-- No brace and no bracket anywhere in the text. -/
def delimFree (l : List Char) : Prop :=
  ∀ c ∈ l, c ≠ '\x7b' ∧ c ≠ '\x7d' ∧ c ≠ '[' ∧ c ≠ ']'

instance (l : List Char) : Decidable (delimFree l) :=
  inferInstanceAs (Decidable (∀ c ∈ l, _))

theorem amount_parse_plain (base : List Char) (va : CurrencyAmount)
    (hb : delimFree base)
    (hva : CurrencyAmount.parse base = .ok va) :
    Amount.parse base = .ok ⟨va, none, none⟩ := by
  have h1 : Strutil.charIdx '\x7b' base = none :=
    Strutil.charIdx_not_mem (fun c hc => (hb c hc).1)
  have h2 : Strutil.charIdx '[' base = none :=
    Strutil.charIdx_not_mem (fun c hc => ((hb c hc).2).2.1)
  simp only [Amount.parse, h1, h2, hva]
  rfl

end Transactions

namespace Transactions

theorem amount_parse_both (base ps ds : List Char) (va pa : CurrencyAmount)
    (dt : NaiveDate)
    (hb : delimFree base) (hps : delimFree ps) (hds : delimFree ds)
    (hva : CurrencyAmount.parse base = .ok va)
    (hpa : CurrencyAmount.parse (Strutil.trim ps) = .ok pa)
    (hdt : parseDateSep '/' (Strutil.trim ds) = some dt) :
    Amount.parse
        (base ++ (' ' :: '\x7b' :: (ps ++ ('\x7d' :: ' ' :: '[' :: (ds ++ [']']))))) =
      .ok ⟨va, some pa, some dt⟩ := by
  have hob : Strutil.charIdx '\x7b'
      (base ++ (' ' :: '\x7b' :: (ps ++ ('\x7d' :: ' ' :: '[' :: (ds ++ [']']))))) =
      some (base.length + 1) := by
    rw [Strutil.charIdx_append_of_not_mem _ (fun c hc => (hb c hc).1),
        Strutil.charIdx_cons_ne (by decide), Strutil.charIdx_cons_self]
    rfl
  have hcb : Strutil.charIdx '\x7d'
      (base ++ (' ' :: '\x7b' :: (ps ++ ('\x7d' :: ' ' :: '[' :: (ds ++ [']']))))) =
      some (base.length + 1 + 1 + ps.length) := by
    rw [Strutil.charIdx_append_of_not_mem _ (fun c hc => (hb c hc).2.1),
        Strutil.charIdx_cons_ne (by decide), Strutil.charIdx_cons_ne (by decide),
        Strutil.charIdx_append_of_not_mem _ (fun c hc => (hps c hc).2.1),
        Strutil.charIdx_cons_self]
    simp only [Option.map_some']
    congr 1
    omega
  have hobr : Strutil.charIdx '['
      (base ++ (' ' :: '\x7b' :: (ps ++ ('\x7d' :: ' ' :: '[' :: (ds ++ [']']))))) =
      some (base.length + 4 + ps.length) := by
    rw [Strutil.charIdx_append_of_not_mem _ (fun c hc => (hb c hc).2.2.1),
        Strutil.charIdx_cons_ne (by decide), Strutil.charIdx_cons_ne (by decide),
        Strutil.charIdx_append_of_not_mem _ (fun c hc => (hps c hc).2.2.1),
        Strutil.charIdx_cons_ne (by decide), Strutil.charIdx_cons_ne (by decide),
        Strutil.charIdx_cons_self]
    simp only [Option.map_some']
    congr 1
    omega
  have hcbr : Strutil.charIdx ']'
      (base ++ (' ' :: '\x7b' :: (ps ++ ('\x7d' :: ' ' :: '[' :: (ds ++ [']']))))) =
      some (base.length + 5 + ps.length + ds.length) := by
    rw [Strutil.charIdx_append_of_not_mem _ (fun c hc => (hb c hc).2.2.2),
        Strutil.charIdx_cons_ne (by decide), Strutil.charIdx_cons_ne (by decide),
        Strutil.charIdx_append_of_not_mem _ (fun c hc => (hps c hc).2.2.2),
        Strutil.charIdx_cons_ne (by decide), Strutil.charIdx_cons_ne (by decide),
        Strutil.charIdx_cons_ne (by decide),
        Strutil.charIdx_append_of_not_mem _ (fun c hc => (hds c hc).2.2.2),
        Strutil.charIdx_cons_self]
    simp only [Option.map_some']
    congr 1
    omega
  have hpslice :
      ((base ++ (' ' :: '\x7b' :: (ps ++ ('\x7d' :: ' ' :: '[' :: (ds ++ [']']))))).drop
          (base.length + 1 + 1)).take (base.length + 1 + 1 + ps.length - (base.length + 1 + 1)) =
        ps := by
    have hsh : base ++ (' ' :: '\x7b' :: (ps ++ ('\x7d' :: ' ' :: '[' :: (ds ++ [']'])))) =
        (base ++ [' ', '\x7b']) ++ (ps ++ ('\x7d' :: ' ' :: '[' :: (ds ++ [']']))) := by
      simp
    rw [hsh, List.drop_left' (by simp),
        show base.length + 1 + 1 + ps.length - (base.length + 1 + 1) = ps.length by omega,
        List.take_left]
  have hdslice :
      ((base ++ (' ' :: '\x7b' :: (ps ++ ('\x7d' :: ' ' :: '[' :: (ds ++ [']']))))).drop
          (base.length + 4 + ps.length + 1)).take
          (base.length + 5 + ps.length + ds.length - (base.length + 4 + ps.length + 1)) =
        ds := by
    have hsh : base ++ (' ' :: '\x7b' :: (ps ++ ('\x7d' :: ' ' :: '[' :: (ds ++ [']'])))) =
        ((base ++ [' ', '\x7b']) ++ ps ++ ['\x7d', ' ', '[']) ++ (ds ++ [']']) := by
      simp
    rw [hsh, List.drop_left' (by simp; omega),
        show base.length + 5 + ps.length + ds.length - (base.length + 4 + ps.length + 1) =
          ds.length by omega,
        List.take_left]
  have hmslice :
      (base ++ (' ' :: '\x7b' :: (ps ++ ('\x7d' :: ' ' :: '[' :: (ds ++ [']']))))).take
          (base.length + 1) = base ++ [' '] := by
    have hsh : base ++ (' ' :: '\x7b' :: (ps ++ ('\x7d' :: ' ' :: '[' :: (ds ++ [']'])))) =
        (base ++ [' ']) ++ ('\x7b' :: (ps ++ ('\x7d' :: ' ' :: '[' :: (ds ++ [']'])))) := by
      simp
    rw [hsh]
    exact List.take_left' (by simp)
  have hmainp : CurrencyAmount.parse (base ++ [' ']) = .ok va :=
    (CurrencyAmount.parse_trim_congr (Strutil.trim_append_ws base)).trans hva
  simp only [Amount.parse, hob, hcb, hobr, hcbr, hpslice, hdslice, hmslice, hpa, hdt, hmainp]
  rfl

end Transactions

namespace Transactions

theorem amount_parse_price (base ps : List Char) (va pa : CurrencyAmount)
    (hb : delimFree base) (hps : delimFree ps)
    (hva : CurrencyAmount.parse base = .ok va)
    (hpa : CurrencyAmount.parse (Strutil.trim ps) = .ok pa) :
    Amount.parse (base ++ (' ' :: '\x7b' :: (ps ++ ['\x7d']))) =
      .ok ⟨va, some pa, none⟩ := by
  have hob : Strutil.charIdx '\x7b' (base ++ (' ' :: '\x7b' :: (ps ++ ['\x7d']))) =
      some (base.length + 1) := by
    rw [Strutil.charIdx_append_of_not_mem _ (fun c hc => (hb c hc).1),
        Strutil.charIdx_cons_ne (by decide), Strutil.charIdx_cons_self]
    rfl
  have hcb : Strutil.charIdx '\x7d' (base ++ (' ' :: '\x7b' :: (ps ++ ['\x7d']))) =
      some (base.length + 1 + 1 + ps.length) := by
    rw [Strutil.charIdx_append_of_not_mem _ (fun c hc => (hb c hc).2.1),
        Strutil.charIdx_cons_ne (by decide), Strutil.charIdx_cons_ne (by decide),
        Strutil.charIdx_append_of_not_mem _ (fun c hc => (hps c hc).2.1),
        Strutil.charIdx_cons_self]
    simp only [Option.map_some']
    congr 1
    omega
  have hnd : Strutil.charIdx '[' (base ++ (' ' :: '\x7b' :: (ps ++ ['\x7d']))) = none := by
    apply Strutil.charIdx_not_mem
    intro x hx
    simp only [List.mem_append, List.mem_cons, List.mem_singleton] at hx
    rcases hx with h | h | h | h | h
    · exact (hb x h).2.2.1
    · subst h; decide
    · subst h; decide
    · exact (hps x h).2.2.1
    · rcases h with rfl | h
      · decide
      · cases h
  have hpslice :
      ((base ++ (' ' :: '\x7b' :: (ps ++ ['\x7d']))).drop (base.length + 1 + 1)).take
          (base.length + 1 + 1 + ps.length - (base.length + 1 + 1)) = ps := by
    have hsh : base ++ (' ' :: '\x7b' :: (ps ++ ['\x7d'])) =
        (base ++ [' ', '\x7b']) ++ (ps ++ ['\x7d']) := by simp
    rw [hsh, List.drop_left' (by simp),
        show base.length + 1 + 1 + ps.length - (base.length + 1 + 1) = ps.length by omega,
        List.take_left]
  have hmslice :
      (base ++ (' ' :: '\x7b' :: (ps ++ ['\x7d']))).take (base.length + 1) =
        base ++ [' '] := by
    have hsh : base ++ (' ' :: '\x7b' :: (ps ++ ['\x7d'])) =
        (base ++ [' ']) ++ ('\x7b' :: (ps ++ ['\x7d'])) := by simp
    rw [hsh]
    exact List.take_left' (by simp)
  have hmainp : CurrencyAmount.parse (base ++ [' ']) = .ok va :=
    (CurrencyAmount.parse_trim_congr (Strutil.trim_append_ws base)).trans hva
  simp only [Amount.parse, hob, hcb, hnd, hpslice, hmslice, hpa, hmainp]
  rfl

theorem amount_parse_date (base ds : List Char) (va : CurrencyAmount)
    (dt : NaiveDate)
    (hb : delimFree base) (hds : delimFree ds)
    (hva : CurrencyAmount.parse base = .ok va)
    (hdt : parseDateSep '/' (Strutil.trim ds) = some dt) :
    Amount.parse (base ++ (' ' :: '[' :: (ds ++ [']']))) =
      .ok ⟨va, none, some dt⟩ := by
  have hnp : Strutil.charIdx '\x7b' (base ++ (' ' :: '[' :: (ds ++ [']']))) = none := by
    apply Strutil.charIdx_not_mem
    intro x hx
    simp only [List.mem_append, List.mem_cons, List.mem_singleton] at hx
    rcases hx with h | h | h | h | h
    · exact (hb x h).1
    · subst h; decide
    · subst h; decide
    · exact (hds x h).1
    · rcases h with rfl | h
      · decide
      · cases h
  have hobr : Strutil.charIdx '[' (base ++ (' ' :: '[' :: (ds ++ [']']))) =
      some (base.length + 1) := by
    rw [Strutil.charIdx_append_of_not_mem _ (fun c hc => (hb c hc).2.2.1),
        Strutil.charIdx_cons_ne (by decide), Strutil.charIdx_cons_self]
    rfl
  have hcbr : Strutil.charIdx ']' (base ++ (' ' :: '[' :: (ds ++ [']']))) =
      some (base.length + 1 + 1 + ds.length) := by
    rw [Strutil.charIdx_append_of_not_mem _ (fun c hc => (hb c hc).2.2.2),
        Strutil.charIdx_cons_ne (by decide), Strutil.charIdx_cons_ne (by decide),
        Strutil.charIdx_append_of_not_mem _ (fun c hc => (hds c hc).2.2.2),
        Strutil.charIdx_cons_self]
    simp only [Option.map_some']
    congr 1
    omega
  have hdslice :
      ((base ++ (' ' :: '[' :: (ds ++ [']']))).drop (base.length + 1 + 1)).take
          (base.length + 1 + 1 + ds.length - (base.length + 1 + 1)) = ds := by
    have hsh : base ++ (' ' :: '[' :: (ds ++ [']'])) =
        (base ++ [' ', '[']) ++ (ds ++ [']']) := by simp
    rw [hsh, List.drop_left' (by simp),
        show base.length + 1 + 1 + ds.length - (base.length + 1 + 1) = ds.length by omega,
        List.take_left]
  have hmslice :
      (base ++ (' ' :: '[' :: (ds ++ [']']))).take (base.length + 1) = base ++ [' '] := by
    have hsh : base ++ (' ' :: '[' :: (ds ++ [']'])) =
        (base ++ [' ']) ++ ('[' :: (ds ++ [']'])) := by simp
    rw [hsh]
    exact List.take_left' (by simp)
  have hmainp : CurrencyAmount.parse (base ++ [' ']) = .ok va :=
    (CurrencyAmount.parse_trim_congr (Strutil.trim_append_ws base)).trans hva
  simp only [Amount.parse, hnp, hobr, hcbr, hdslice, hmslice, hdt, hmainp]
  rfl

end Transactions

/-- C1: for every well-formed S-expression input and every partition of
it into consecutive chunks, feeding the chunks to `take` and
concatenating the intermediate `drain_output` results with the final
`finish` result yields the same ordered value sequence as one single
`take` followed by `finish`. -/
theorem c1_chunk_independence (chunks : List (List Char))
    (vs : List Sexpr.Value)
    (h : Sexpr.parseSexpr (String.mk chunks.flatten) = Except.ok vs) :
    Sexpr.runChunks Sexpr.Parser.new chunks [] = Except.ok vs := by
  rw [Sexpr.runChunks_eq chunks Sexpr.Parser.new []]
  unfold Sexpr.parseSexpr at h
  have hdata : (String.mk chunks.flatten).data = chunks.flatten := rfl
  rw [hdata] at h
  rw [h]
  simp [Except.map]

/-- Witness for C1 at the concrete split of `(a b)` into two chunks. -/
theorem c1_chunk_independence_witness :
    Sexpr.runChunks Sexpr.Parser.new ["(a".data, " b)".data] [] =
      Except.ok [Sexpr.Value.atom "a", Sexpr.Value.atom "b"] :=
  c1_chunk_independence ["(a".data, " b)".data]
    [Sexpr.Value.atom "a", Sexpr.Value.atom "b"] (by rfl)

/-- C2: per command, every non-sentinel stdout line is forwarded as a
data event in arrival order; at the sentinel the command completes with
success when no stderr line was read before it, else with an error whose
text is the buffered stderr lines joined and trimmed; stderr lines are
never forwarded as data events. -/
theorem c2_actor_framing (pre rest : List Ledger.ReadResult)
    (h : ∀ r ∈ pre, Ledger.nonTerminal r = true) :
    Ledger.runCommandLoop (pre ++ Ledger.ReadResult.stdout none :: rest) [] =
      (Ledger.stdoutLines pre,
       if Ledger.stderrLines pre = [] then Ledger.Outcome.success
       else Ledger.Outcome.stderrErr
         (String.mk (Strutil.trim (String.join (Ledger.stderrLines pre)).data))) := by
  rw [Ledger.runCommandLoop_stdout_marker pre rest [] h]
  simp only [List.nil_append]
  by_cases he : Ledger.stderrLines pre = []
  · rw [if_pos (by simp [he]), if_pos he]
  · rw [if_neg (by simp [he]), if_neg he]

/-- Witness for C2: two stdout lines around one stderr line, then the
sentinel. -/
theorem c2_actor_framing_witness :
    Ledger.runCommandLoop
      [Ledger.ReadResult.stdout (some "l1"),
       Ledger.ReadResult.stderr (some "err"),
       Ledger.ReadResult.stdout (some "l2"),
       Ledger.ReadResult.stdout none] [] =
      (["l1", "l2"], Ledger.Outcome.stderrErr "err") := by
  rw [show [Ledger.ReadResult.stdout (some "l1"),
       Ledger.ReadResult.stderr (some "err"),
       Ledger.ReadResult.stdout (some "l2"),
       Ledger.ReadResult.stdout none] =
      [Ledger.ReadResult.stdout (some "l1"),
       Ledger.ReadResult.stderr (some "err"),
       Ledger.ReadResult.stdout (some "l2")] ++
        Ledger.ReadResult.stdout none :: [] from rfl]
  rw [c2_actor_framing _ _ (by decide)]
  rfl

/-- C8: when stderr reaches end-of-file before the stdout sentinel, the
command completes with a fatal I/O error if no stderr content was
buffered, and with an ordinary command error carrying the joined,
trimmed stderr text otherwise. -/
theorem c8_stderr_eof_asymmetry (pre rest : List Ledger.ReadResult)
    (h : ∀ r ∈ pre, Ledger.nonTerminal r = true) :
    Ledger.runCommandLoop (pre ++ Ledger.ReadResult.stderr none :: rest) [] =
      (Ledger.stdoutLines pre,
       if Ledger.stderrLines pre = [] then Ledger.Outcome.ioError "Stderr closed"
       else Ledger.Outcome.stderrErr
         (String.mk (Strutil.trim (String.join (Ledger.stderrLines pre)).data))) := by
  rw [Ledger.runCommandLoop_stderr_eof pre rest [] h]
  simp only [List.nil_append]
  by_cases he : Ledger.stderrLines pre = []
  · rw [if_pos (by simp [he]), if_pos he]
  · rw [if_neg (by simp [he]), if_neg he]

/-- Witness for C8 in both directions of the asymmetry: stderr EOF with
an empty buffer is fatal I/O, with buffered content it is an ordinary
stderr error. -/
theorem c8_stderr_eof_asymmetry_witness :
    Ledger.runCommandLoop
      [Ledger.ReadResult.stdout (some "l1"), Ledger.ReadResult.stderr none] [] =
      (["l1"], Ledger.Outcome.ioError "Stderr closed") ∧
    Ledger.runCommandLoop
      [Ledger.ReadResult.stderr (some "boom"), Ledger.ReadResult.stderr none] [] =
      (([] : List String), Ledger.Outcome.stderrErr "boom") := by
  constructor
  · rw [show [Ledger.ReadResult.stdout (some "l1"), Ledger.ReadResult.stderr none] =
        [Ledger.ReadResult.stdout (some "l1")] ++
          Ledger.ReadResult.stderr none :: [] from rfl]
    rw [c8_stderr_eof_asymmetry _ _ (by decide)]
    rfl
  · rw [show [Ledger.ReadResult.stderr (some "boom"), Ledger.ReadResult.stderr none] =
        [Ledger.ReadResult.stderr (some "boom")] ++
          Ledger.ReadResult.stderr none :: [] from rfl]
    rw [c8_stderr_eof_asymmetry _ _ (by decide)]
    rfl

/-- C7: each malformed input is rejected with its specific error: a lone
close paren fails during `take` with unmatched-close-paren; an
unterminated string is accepted by `take` and rejected at `finish`;
a second top-level form fails with multiple-top-level-forms; a
digit-leading atom that is not an integer fails with invalid-integer. -/
theorem c7_parser_errors :
    (Sexpr.Parser.new.take ")".data =
      Except.error Sexpr.Error.unmatchedCloseParen) ∧
    ((Sexpr.Parser.new.take "(\"abc".data).isOk = true ∧
      Sexpr.parseSexpr "(\"abc" = Except.error Sexpr.Error.unterminatedString) ∧
    (Sexpr.parseSexpr "(a)(b)" =
      Except.error Sexpr.Error.multipleTopLevelForms) ∧
    (Sexpr.parseSexpr "(1x)" =
      Except.error (Sexpr.Error.invalidInteger "1x")) :=
  ⟨rfl, ⟨rfl, rfl⟩, rfl, rfl⟩

/-- C4 (code bug): `Transaction::from_sexpr` rejects an integer
epoch-seconds date at element 2 with a positional type error, although
the application requests `--lisp-date-format seconds`; only the ISO
string form decodes. -/
theorem c4_integer_date_rejected :
    Transactions.Transaction.fromSexpr
      [Sexpr.Value.str "a.ledger", Sexpr.Value.i64 8561,
       Sexpr.Value.i64 1764979200, Sexpr.Value.atom "nil",
       Sexpr.Value.str "desc"] =
      Except.error (Transactions.ParseTransactionError.unexpectedType 2
        (Sexpr.Value.i64 1764979200)) ∧
    Transactions.Transaction.fromSexpr
      [Sexpr.Value.str "a.ledger", Sexpr.Value.i64 8561,
       Sexpr.Value.str "2025-12-05", Sexpr.Value.atom "nil",
       Sexpr.Value.str "desc"] =
      Except.ok { file := "a.ledger", line := 8561, time := ⟨2025, 12, 5⟩,
                  description := "desc", postings := [] } :=
  ⟨rfl, rfl⟩

/-- C9: when the target path does not fully resolve in the tree,
`add_amount_to_account` returns the tree unchanged: no node is created
and no balance is modified. -/
theorem c9_missing_path_drops (t : Accounts.TreeNode) (a : Accounts.Account)
    (amt : Accounts.Amount)
    (h : Accounts.TreeNode.lookup t a.segments = none) :
    t.addAmountToAccount a amt = t := by
  unfold Accounts.TreeNode.addAmountToAccount
  by_cases hr : (Accounts.TreeNode.addAmountRec a amt t 0).2 = true
  · have hsome := Accounts.addAmountRec_found_lookup a amt t 0 hr
    rw [show Accounts.TreeNode.lookupAux a.segments t 0 =
        Accounts.TreeNode.lookup t a.segments from rfl, h] at hsome
    simp at hsome
  · exact Accounts.addAmountRec_false a amt t 0 (by simpa using hr)

/-- Witness for C9: adding to a never-inserted account of the empty tree
is a silent no-op. -/
theorem c9_missing_path_drops_witness :
    Accounts.TreeNode.lookup Accounts.TreeNode.new
      (Accounts.Account.parse "a:b").segments = none ∧
    Accounts.TreeNode.addAmountToAccount Accounts.TreeNode.new
      (Accounts.Account.parse "a:b") ⟨5, "USD"⟩ = Accounts.TreeNode.new := by
  have hl : Accounts.TreeNode.lookup Accounts.TreeNode.new
      (Accounts.Account.parse "a:b").segments = none := by
    rw [Accounts.lookup_eval]
    decide
  exact ⟨hl, c9_missing_path_drops Accounts.TreeNode.new
    (Accounts.Account.parse "a:b") ⟨5, "USD"⟩ hl⟩

/-- Counterexample to C5 as frozen: in the worked example tree the root
is a node whose subtree contains every posted account, yet its balance
holds nothing — 0 USD instead of the 350 USD subtree total. -/
theorem c5_root_balance_counterexample :
    Accounts.TreeNode.lookup (Accounts.buildTree c5exPostings) [] =
      some (Accounts.buildTree c5exPostings) ∧
    (Accounts.buildTree c5exPostings).balance.get "USD" = 0 ∧
    Accounts.postingsSum c5exPostings [] "USD" = 350 := by
  refine ⟨by rw [Accounts.lookup_eval]; rfl, ?_, ?_⟩
  · rw [Accounts.buildTree_eval]
    simp [c5exPostings, Accounts.TreeNode.addAmountFuel,
      Accounts.TreeNode.addAccountFuel, Accounts.findSplit, Accounts.findChild,
      Accounts.Balance.addAmount, Accounts.Balance.updateAssoc,
      Accounts.Balance.get, Accounts.Balance.new, Accounts.TreeNode.new,
      Accounts.Account.fromSegments, Accounts.Account.empty]
  · simp [Accounts.postingsSum, c5exPostings, Accounts.Account.fromSegments]
    norm_num

/-- C5 (amended): in a tree built by `add_account` for every posted path
and then `add_amount_to_account` for every posting, every node strictly
below the root carries, per commodity, exactly the sum of the amounts
posted into its subtree; the balance of the root itself stays empty.
The worked examples evaluate as the specification states. -/
theorem c5_rollup_amended :
    (∀ (P : List (Accounts.Account × Accounts.Amount)) (full : List String)
       (c : String) (n : Accounts.TreeNode), full ≠ [] →
       Accounts.TreeNode.lookup (Accounts.buildTree P) full = some n →
       n.balance.get c = Accounts.postingsSum P full c) ∧
    ((Accounts.TreeNode.lookup (Accounts.buildTree c5exPostings)
        ["assets", "bank", "checking"]).map (fun n => n.balance.get "USD") =
      some 100 ∧
     (Accounts.TreeNode.lookup (Accounts.buildTree c5exPostings)
        ["assets", "bank", "savings"]).map (fun n => n.balance.get "USD") =
      some 200 ∧
     (Accounts.TreeNode.lookup (Accounts.buildTree c5exPostings)
        ["assets", "bank"]).map (fun n => n.balance.get "USD") = some 300 ∧
     (Accounts.TreeNode.lookup (Accounts.buildTree c5exPostings)
        ["assets", "cash"]).map (fun n => n.balance.get "USD") = some 50 ∧
     (Accounts.TreeNode.lookup (Accounts.buildTree c5exPostings)
        ["assets"]).map (fun n => n.balance.get "USD") = some 350) ∧
    ((Accounts.TreeNode.lookup (Accounts.buildTree c5exMixed)
        ["assets"]).map (fun n => n.balance.get "USD") = some 100 ∧
     (Accounts.TreeNode.lookup (Accounts.buildTree c5exMixed)
        ["assets"]).map (fun n => n.balance.get "EUR") = some 50) ∧
    (Accounts.buildTree c5exPostings).balance.get "USD" = 0 := by
  refine ⟨?_,
    ⟨?_, ?_, ?_, ?_, ?_⟩, ⟨?_, ?_⟩, ?_⟩
  · intro P full c n hfull hn
    exact Accounts.buildTree_get P full c n hfull hn
  · rw [Accounts.buildTree_eval, Accounts.lookup_eval]
    simp [c5exPostings, c5exMixed, Accounts.TreeNode.addAmountFuel,
      Accounts.TreeNode.addAccountFuel, Accounts.TreeNode.lookupFuel,
      Accounts.findSplit, Accounts.findChild, Accounts.Balance.addAmount,
      Accounts.Balance.updateAssoc, Accounts.Balance.get,
      Accounts.Balance.new, Accounts.TreeNode.new,
      Accounts.Account.fromSegments, Accounts.Account.empty]
    try norm_num
  · rw [Accounts.buildTree_eval, Accounts.lookup_eval]
    simp [c5exPostings, c5exMixed, Accounts.TreeNode.addAmountFuel,
      Accounts.TreeNode.addAccountFuel, Accounts.TreeNode.lookupFuel,
      Accounts.findSplit, Accounts.findChild, Accounts.Balance.addAmount,
      Accounts.Balance.updateAssoc, Accounts.Balance.get,
      Accounts.Balance.new, Accounts.TreeNode.new,
      Accounts.Account.fromSegments, Accounts.Account.empty]
    try norm_num
  · rw [Accounts.buildTree_eval, Accounts.lookup_eval]
    simp [c5exPostings, c5exMixed, Accounts.TreeNode.addAmountFuel,
      Accounts.TreeNode.addAccountFuel, Accounts.TreeNode.lookupFuel,
      Accounts.findSplit, Accounts.findChild, Accounts.Balance.addAmount,
      Accounts.Balance.updateAssoc, Accounts.Balance.get,
      Accounts.Balance.new, Accounts.TreeNode.new,
      Accounts.Account.fromSegments, Accounts.Account.empty]
    try norm_num
  · rw [Accounts.buildTree_eval, Accounts.lookup_eval]
    simp [c5exPostings, c5exMixed, Accounts.TreeNode.addAmountFuel,
      Accounts.TreeNode.addAccountFuel, Accounts.TreeNode.lookupFuel,
      Accounts.findSplit, Accounts.findChild, Accounts.Balance.addAmount,
      Accounts.Balance.updateAssoc, Accounts.Balance.get,
      Accounts.Balance.new, Accounts.TreeNode.new,
      Accounts.Account.fromSegments, Accounts.Account.empty]
    try norm_num
  · rw [Accounts.buildTree_eval, Accounts.lookup_eval]
    simp [c5exPostings, c5exMixed, Accounts.TreeNode.addAmountFuel,
      Accounts.TreeNode.addAccountFuel, Accounts.TreeNode.lookupFuel,
      Accounts.findSplit, Accounts.findChild, Accounts.Balance.addAmount,
      Accounts.Balance.updateAssoc, Accounts.Balance.get,
      Accounts.Balance.new, Accounts.TreeNode.new,
      Accounts.Account.fromSegments, Accounts.Account.empty]
    try norm_num
  · rw [Accounts.buildTree_eval, Accounts.lookup_eval]
    simp [c5exPostings, c5exMixed, Accounts.TreeNode.addAmountFuel,
      Accounts.TreeNode.addAccountFuel, Accounts.TreeNode.lookupFuel,
      Accounts.findSplit, Accounts.findChild, Accounts.Balance.addAmount,
      Accounts.Balance.updateAssoc, Accounts.Balance.get,
      Accounts.Balance.new, Accounts.TreeNode.new,
      Accounts.Account.fromSegments, Accounts.Account.empty]
    try norm_num
  · rw [Accounts.buildTree_eval, Accounts.lookup_eval]
    simp [c5exPostings, c5exMixed, Accounts.TreeNode.addAmountFuel,
      Accounts.TreeNode.addAccountFuel, Accounts.TreeNode.lookupFuel,
      Accounts.findSplit, Accounts.findChild, Accounts.Balance.addAmount,
      Accounts.Balance.updateAssoc, Accounts.Balance.get,
      Accounts.Balance.new, Accounts.TreeNode.new,
      Accounts.Account.fromSegments, Accounts.Account.empty]
    try norm_num
  · rw [Accounts.buildTree_eval]
    simp [c5exPostings, Accounts.TreeNode.addAmountFuel,
      Accounts.TreeNode.addAccountFuel, Accounts.findSplit,
      Accounts.findChild, Accounts.Balance.addAmount,
      Accounts.Balance.updateAssoc, Accounts.Balance.get,
      Accounts.Balance.new, Accounts.TreeNode.new,
      Accounts.Account.fromSegments, Accounts.Account.empty]

/-- Witness for C5 (amended), applying the general statement at the node
assets of the worked example. -/
theorem c5_rollup_amended_witness :
    (Accounts.TreeNode.lookup (Accounts.buildTree c5exPostings)
      ["assets"]).map (fun n => n.balance.get "USD") =
      some (Accounts.postingsSum c5exPostings ["assets"] "USD") := by
  cases hl : Accounts.TreeNode.lookup (Accounts.buildTree c5exPostings)
      ["assets"] with
  | none =>
      have hiss : (Accounts.TreeNode.lookup (Accounts.buildTree c5exPostings)
          ["assets"]).isSome = true := by
        rw [Accounts.buildTree_eval, Accounts.lookup_eval]
        simp [c5exPostings, Accounts.TreeNode.addAmountFuel,
          Accounts.TreeNode.addAccountFuel, Accounts.TreeNode.lookupFuel,
          Accounts.findSplit, Accounts.findChild, Accounts.Balance.addAmount,
          Accounts.Balance.updateAssoc, Accounts.Balance.new,
          Accounts.TreeNode.new, Accounts.Account.fromSegments,
          Accounts.Account.empty]
      rw [hl] at hiss
      simp at hiss
  | some n =>
      rw [Option.map_some']
      exact congrArg some
        (c5_rollup_amended.1 c5exPostings ["assets"] "USD" n (by simp) hl)

/-- Counterexample to C6 as frozen: element 0 of a transaction form has
the wrong kind (an integer where the file string is expected), but the
returned error names position 1 and carries element 1 — which itself has
exactly the kind expected at position 1. -/
theorem c6_position_misreport :
    Transactions.Transaction.fromSexpr
      [Sexpr.Value.i64 7, Sexpr.Value.i64 8561, Sexpr.Value.str "2025-12-05",
       Sexpr.Value.atom "nil", Sexpr.Value.str "desc"] =
      Except.error (Transactions.ParseTransactionError.unexpectedType 1
        (Sexpr.Value.i64 8561)) ∧
    (Sexpr.Value.i64 7).isStr = false ∧
    (Sexpr.Value.i64 8561).isI64 = true :=
  ⟨rfl, rfl, rfl⟩

/-- C6 (amended): both decoders fail on every length or kind mismatch
with a typed positional error and never abort; mismatches at the checked
positions are reported at their own index — except that a wrong kind at
transaction position 0 is reported as position 1 with element 1 as
payload (positions 3 of the transaction and 0 and 3 of the posting are
never inspected). -/
theorem c6_positional_errors :
    (∀ l : List Sexpr.Value, l.length < 5 →
      Transactions.Transaction.fromSexpr l =
        Except.error (Transactions.ParseTransactionError.unexpectedLength 5 l.length)) ∧
    (∀ v0 v1 v2 v3 v4 : Sexpr.Value, ∀ rest, v0.isStr = false →
      Transactions.Transaction.fromSexpr (v0 :: v1 :: v2 :: v3 :: v4 :: rest) =
        Except.error (Transactions.ParseTransactionError.unexpectedType 1 v1)) ∧
    (∀ (f : String) (v1 v2 v3 v4 : Sexpr.Value), ∀ rest, v1.isI64 = false →
      Transactions.Transaction.fromSexpr
          (Sexpr.Value.str f :: v1 :: v2 :: v3 :: v4 :: rest) =
        Except.error (Transactions.ParseTransactionError.unexpectedType 1 v1)) ∧
    (∀ (f : String) (l : Int) (v2 v3 v4 : Sexpr.Value), ∀ rest, v2.isStr = false →
      Transactions.Transaction.fromSexpr
          (Sexpr.Value.str f :: Sexpr.Value.i64 l :: v2 :: v3 :: v4 :: rest) =
        Except.error (Transactions.ParseTransactionError.unexpectedType 2 v2)) ∧
    (∀ (f : String) (l : Int) (d : String) (v3 v4 : Sexpr.Value), ∀ rest,
      v4.isStr = false →
      Transactions.Transaction.fromSexpr
          (Sexpr.Value.str f :: Sexpr.Value.i64 l :: Sexpr.Value.str d ::
            v3 :: v4 :: rest) =
        Except.error (Transactions.ParseTransactionError.unexpectedType 4 v4)) ∧
    (∀ (rest : List Sexpr.Value) (i : Nat) (v : Sexpr.Value), v.isList = false →
      Transactions.decodePostings (v :: rest) i =
        Except.error (Transactions.ParseTransactionError.unexpectedType (i + 5) v)) ∧
    (∀ l : List Sexpr.Value, l.length < 4 →
      Transactions.Posting.fromSexpr l =
        Except.error (Transactions.ParsePostingError.unexpectedLength 4 l.length)) ∧
    (∀ v0 v1 v2 v3 : Sexpr.Value, ∀ rest, v1.isStr = false →
      Transactions.Posting.fromSexpr (v0 :: v1 :: v2 :: v3 :: rest) =
        Except.error (Transactions.ParsePostingError.unexpectedType 1 v1)) ∧
    (∀ (v0 : Sexpr.Value) (a : String) (v2 v3 : Sexpr.Value), ∀ rest,
      v2.isStr = false →
      Transactions.Posting.fromSexpr (v0 :: Sexpr.Value.str a :: v2 :: v3 :: rest) =
        Except.error (Transactions.ParsePostingError.unexpectedType 2 v2)) ∧
    (∀ (v0 : Sexpr.Value) (a amtStr : String) (v3 v4 : Sexpr.Value),
      v4.isStr = false →
      (Transactions.Amount.parse amtStr.data).isOk = true →
      Transactions.Posting.fromSexpr
          [v0, Sexpr.Value.str a, Sexpr.Value.str amtStr, v3, v4] =
        Except.error (Transactions.ParsePostingError.unexpectedType 4 v4)) := by
  refine ⟨?_, ?_, ?_, ?_, ?_, ?_, ?_, ?_, ?_, ?_⟩
  · intro l hlen
    rcases l with _ | ⟨a, _ | ⟨b, _ | ⟨c, _ | ⟨d, _ | ⟨e, rest⟩⟩⟩⟩⟩
    · rfl
    · rfl
    · rfl
    · rfl
    · rfl
    · exfalso
      simp only [List.length_cons] at hlen
      omega
  · intro v0 v1 v2 v3 v4 rest h
    cases v0 <;> first | rfl | simp [Sexpr.Value.isStr] at h
  · intro f v1 v2 v3 v4 rest h
    cases v1 <;> first | rfl | simp [Sexpr.Value.isI64] at h
  · intro f l v2 v3 v4 rest h
    cases v2 <;> first | rfl | simp [Sexpr.Value.isStr] at h
  · intro f l d v3 v4 rest h
    cases v4 <;> first | rfl | simp [Sexpr.Value.isStr] at h
  · intro rest i v h
    cases v <;> first | rfl | simp [Sexpr.Value.isList] at h
  · intro l hlen
    rcases l with _ | ⟨a, _ | ⟨b, _ | ⟨c, _ | ⟨d, rest⟩⟩⟩⟩
    · rfl
    · rfl
    · rfl
    · rfl
    · exfalso
      simp only [List.length_cons] at hlen
      omega
  · intro v0 v1 v2 v3 rest h
    cases v1 <;> first | rfl | simp [Sexpr.Value.isStr] at h
  · intro v0 a v2 v3 rest h
    cases v2 <;> first | rfl | simp [Sexpr.Value.isStr] at h
  · intro v0 a amtStr v3 v4 h hok
    unfold Transactions.Posting.fromSexpr
    cases hamt : Transactions.Amount.parse amtStr.data with
    | error e => rw [hamt] at hok; simp [Except.isOk, Except.toBool] at hok
    | ok amt =>
        simp only [hamt]
        cases v4 <;> first | rfl | simp [Sexpr.Value.isStr] at h

/-- Witness for C6 at a concrete mismatch of each decoder position. -/
theorem c6_positional_errors_witness :
    Transactions.Transaction.fromSexpr
      [Sexpr.Value.str "f.ledger", Sexpr.Value.i64 1, Sexpr.Value.i64 99,
       Sexpr.Value.atom "nil", Sexpr.Value.str "d"] =
      Except.error (Transactions.ParseTransactionError.unexpectedType 2
        (Sexpr.Value.i64 99)) ∧
    Transactions.Posting.fromSexpr [Sexpr.Value.i64 8562, Sexpr.Value.i64 0,
      Sexpr.Value.str "1 SEK", Sexpr.Value.atom "p"] =
      Except.error (Transactions.ParsePostingError.unexpectedType 1
        (Sexpr.Value.i64 0)) :=
  ⟨c6_positional_errors.2.2.2.1 "f.ledger" 1 (Sexpr.Value.i64 99)
      (Sexpr.Value.atom "nil") (Sexpr.Value.str "d") [] rfl,
   c6_positional_errors.2.2.2.2.2.2.2.1 (Sexpr.Value.i64 8562)
      (Sexpr.Value.i64 0) (Sexpr.Value.str "1 SEK") (Sexpr.Value.atom "p")
      [] rfl⟩

/-- C10: `Account::name` is partial; the `Option`-level embedding makes
the `unwrap` panic the `none` case, which arises exactly on an empty
segment sequence: for `Account::empty()` (held by a fresh or cleared
tree root) and for `Account::parse` of the empty string or of strings of
only `:` separators; on a nonempty segment sequence it returns the last
segment. -/
theorem c10_account_name_partiality :
    (∀ a : Accounts.Account, a.segments = [] → a.name? = none) ∧
    (Accounts.Account.empty.name? = none) ∧
    ((Accounts.Account.parse "").segments = [] ∧
     (Accounts.Account.parse ":").segments = [] ∧
     (Accounts.Account.parse "::").segments = [] ∧
     (Accounts.Account.parse ":::").segments = []) ∧
    (Accounts.TreeNode.new.account = Accounts.Account.empty ∧
     ∀ t : Accounts.TreeNode,
       (Accounts.TreeNode.clear t).account = Accounts.Account.empty) ∧
    (∀ (a : Accounts.Account) (h : a.segments ≠ []),
       a.name? = some (a.segments.getLast h)) := by
  refine ⟨?_, rfl, ⟨by decide, by decide, by decide, by decide⟩,
    ⟨rfl, fun t => rfl⟩, ?_⟩
  · intro a ha
    unfold Accounts.Account.name?
    rw [ha]
    rfl
  · intro a h
    unfold Accounts.Account.name?
    exact List.getLast?_eq_getLast a.segments h

/-- Witness for C10 on the account assets:cash and on the parse
instances. -/
theorem c10_account_name_partiality_witness :
    (Accounts.Account.parse "assets:cash").name? = some "cash" ∧
    (Accounts.Account.parse "::").name? = none := by
  constructor
  · have h : (Accounts.Account.parse "assets:cash").segments ≠ [] := by decide
    rw [c10_account_name_partiality.2.2.2.2 (Accounts.Account.parse "assets:cash") h]
    rfl
  · exact c10_account_name_partiality.1 (Accounts.Account.parse "::") (by decide)

/-- C3: the `Amount::parse` grammar.  Generally: a `decimal commodity`
pair parses to the decimal with comma separators stripped and the
commodity with surrounding double quotes trimmed; a lone decimal token
gets the empty commodity; a digit string of any length around one
decimal point parses to the exact rational carrying every digit, with
no truncation; with a brace-delimited clause present the clause parses
as the price and with a bracket-delimited clause present the clause
parses as the `YYYY/MM/DD` settlement date, each present in the result
exactly when its clause is present in the text.  Concretely:
`-1,020.48 GEL` gives value -1020.48 commodity GEL; the priced and
dated `-20.48 GEL` example gives -20.48 GEL with price 3.6041025641
SEK and date 2025-12-03; and a 31-significant-digit price decodes
exactly. -/
theorem c3_amount_grammar :
    (∀ dec com : List Char, ∀ v : Rat,
        (∀ c ∈ dec, c.isWhitespace = false) → dec ≠ [] →
        (∀ c ∈ com, c.isWhitespace = false) → com ≠ [] →
        Strutil.parseDecimal (dec.filter (fun c => ¬ c = ',')) = some v →
        Transactions.CurrencyAmount.parse (dec ++ ' ' :: com) =
          .ok ⟨v, String.mk (Strutil.trimMatches '"' com)⟩)
  ∧ (∀ dec : List Char, ∀ v : Rat,
        (∀ c ∈ dec, c.isWhitespace = false) → dec ≠ [] →
        Strutil.parseDecimal (dec.filter (fun c => ¬ c = ',')) = some v →
        Transactions.CurrencyAmount.parse dec = .ok ⟨v, ""⟩)
  ∧ (∀ ip fp : List Char,
        (∀ c ∈ ip, c.isDigit = true) → ip ≠ [] →
        (∀ c ∈ fp, c.isDigit = true) →
        Strutil.parseDecimal (ip ++ '.' :: fp) =
          some (mkRat (Strutil.digitsToNat (ip ++ fp)) (10 ^ fp.length)))
  ∧ (∀ base ps ds : List Char, ∀ va pa : Transactions.CurrencyAmount,
        ∀ dt : NaiveDate,
        Transactions.delimFree base → Transactions.delimFree ps →
        Transactions.delimFree ds →
        Transactions.CurrencyAmount.parse base = .ok va →
        Transactions.CurrencyAmount.parse (Strutil.trim ps) = .ok pa →
        parseDateSep '/' (Strutil.trim ds) = some dt →
        Transactions.Amount.parse
            (base ++ (' ' :: '\x7b' :: (ps ++ ('\x7d' :: ' ' :: '[' :: (ds ++ [']']))))) =
          .ok ⟨va, some pa, some dt⟩)
  ∧ (∀ base ps : List Char, ∀ va pa : Transactions.CurrencyAmount,
        Transactions.delimFree base → Transactions.delimFree ps →
        Transactions.CurrencyAmount.parse base = .ok va →
        Transactions.CurrencyAmount.parse (Strutil.trim ps) = .ok pa →
        Transactions.Amount.parse (base ++ (' ' :: '\x7b' :: (ps ++ ['\x7d']))) =
          .ok ⟨va, some pa, none⟩)
  ∧ (∀ base ds : List Char, ∀ va : Transactions.CurrencyAmount, ∀ dt : NaiveDate,
        Transactions.delimFree base → Transactions.delimFree ds →
        Transactions.CurrencyAmount.parse base = .ok va →
        parseDateSep '/' (Strutil.trim ds) = some dt →
        Transactions.Amount.parse (base ++ (' ' :: '[' :: (ds ++ [']']))) =
          .ok ⟨va, none, some dt⟩)
  ∧ (∀ base : List Char, ∀ va : Transactions.CurrencyAmount,
        Transactions.delimFree base →
        Transactions.CurrencyAmount.parse base = .ok va →
        Transactions.Amount.parse base = .ok ⟨va, none, none⟩)
  ∧ Transactions.Amount.parse "-1,020.48 GEL".data =
      .ok ⟨⟨mkRat (-102048) 100, "GEL"⟩, none, none⟩
  ∧ Transactions.Amount.parse
        "-20.48 GEL \x7b3.6041025641 SEK\x7d [2025/12/03]".data =
      .ok ⟨⟨mkRat (-2048) 100, "GEL"⟩,
           some ⟨mkRat 36041025641 10000000000, "SEK"⟩,
           some ⟨2025, 12, 3⟩⟩
  ∧ Transactions.Amount.parse
        "194.21240000 USDT \x7b9.525653356840242950501615756769 SEK\x7d [2025/09/17]".data =
      .ok ⟨⟨mkRat 19421240000 100000000, "USDT"⟩,
           some ⟨mkRat 9525653356840242950501615756769
                   1000000000000000000000000000000, "SEK"⟩,
           some ⟨2025, 9, 17⟩⟩ := by
  refine ⟨?_, ?_, ?_, ?_, ?_, ?_, ?_, ?_, ?_, ?_⟩
  · exact fun dec com v hd hdne hc hcne hv =>
      Transactions.currencyAmount_parse_pair dec com v hd hdne hc hcne hv
  · exact fun dec v hws hne hv =>
      Transactions.currencyAmount_parse_single dec v hws hne hv
  · exact fun ip fp hip hne hfp => Strutil.parseDecimal_digits ip fp hip hne hfp
  · exact fun base ps ds va pa dt hb hps hds hva hpa hdt =>
      Transactions.amount_parse_both base ps ds va pa dt hb hps hds hva hpa hdt
  · exact fun base ps va pa hb hps hva hpa =>
      Transactions.amount_parse_price base ps va pa hb hps hva hpa
  · exact fun base ds va dt hb hds hva hdt =>
      Transactions.amount_parse_date base ds va dt hb hds hva hdt
  · exact fun base va hb hva => Transactions.amount_parse_plain base va hb hva
  · rfl
  · rfl
  · rfl

/-- Witness for C3: every hypothesis-bearing conjunct applied at a
concrete input, the two-clause shape at the 31-digit price example. -/
theorem c3_amount_grammar_witness :
    (Transactions.CurrencyAmount.parse ("-1,020.48".data ++ ' ' :: "GEL".data) =
      .ok ⟨mkRat (-102048) 100, "GEL"⟩)
  ∧ (Transactions.CurrencyAmount.parse "-1,020.48".data =
      .ok ⟨mkRat (-102048) 100, ""⟩)
  ∧ (Strutil.parseDecimal ("194".data ++ '.' :: "21240000".data) =
      some (mkRat 19421240000 100000000))
  ∧ (Transactions.Amount.parse
        ("194.21240000 USDT".data ++
          (' ' :: '\x7b' ::
            ("9.525653356840242950501615756769 SEK".data ++
              ('\x7d' :: ' ' :: '[' :: ("2025/09/17".data ++ [']']))))) =
      .ok ⟨⟨mkRat 19421240000 100000000, "USDT"⟩,
           some ⟨mkRat 9525653356840242950501615756769
                   1000000000000000000000000000000, "SEK"⟩,
           some ⟨2025, 9, 17⟩⟩)
  ∧ (Transactions.Amount.parse
        ("-20.48 GEL".data ++ (' ' :: '\x7b' :: ("3.6041025641 SEK".data ++ ['\x7d']))) =
      .ok ⟨⟨mkRat (-2048) 100, "GEL"⟩,
           some ⟨mkRat 36041025641 10000000000, "SEK"⟩, none⟩)
  ∧ (Transactions.Amount.parse
        ("-20.48 GEL".data ++ (' ' :: '[' :: ("2025/12/03".data ++ [']']))) =
      .ok ⟨⟨mkRat (-2048) 100, "GEL"⟩, none, some ⟨2025, 12, 3⟩⟩)
  ∧ (Transactions.Amount.parse "-1,020.48 GEL".data =
      .ok ⟨⟨mkRat (-102048) 100, "GEL"⟩, none, none⟩) :=
  ⟨c3_amount_grammar.1 "-1,020.48".data "GEL".data (mkRat (-102048) 100)
      (by decide) (by decide) (by decide) (by decide) (by rfl),
   c3_amount_grammar.2.1 "-1,020.48".data (mkRat (-102048) 100)
      (by decide) (by decide) (by rfl),
   c3_amount_grammar.2.2.1 "194".data "21240000".data
      (by decide) (by decide) (by decide),
   c3_amount_grammar.2.2.2.1 "194.21240000 USDT".data
      "9.525653356840242950501615756769 SEK".data "2025/09/17".data
      ⟨mkRat 19421240000 100000000, "USDT"⟩
      ⟨mkRat 9525653356840242950501615756769 1000000000000000000000000000000, "SEK"⟩
      ⟨2025, 9, 17⟩ (by decide) (by decide) (by decide) (by rfl) (by rfl) (by rfl),
   c3_amount_grammar.2.2.2.2.1 "-20.48 GEL".data "3.6041025641 SEK".data
      ⟨mkRat (-2048) 100, "GEL"⟩ ⟨mkRat 36041025641 10000000000, "SEK"⟩
      (by decide) (by decide) (by rfl) (by rfl),
   c3_amount_grammar.2.2.2.2.2.1 "-20.48 GEL".data "2025/12/03".data
      ⟨mkRat (-2048) 100, "GEL"⟩ ⟨2025, 12, 3⟩
      (by decide) (by decide) (by rfl) (by rfl),
   c3_amount_grammar.2.2.2.2.2.2.1 "-1,020.48 GEL".data
      ⟨mkRat (-102048) 100, "GEL"⟩ (by decide) (by rfl)⟩
